import Mathlib

/-!
Verification of the causal-validation placebo-test engine and transform
pipeline.  Definitions in namespace `Placebo` are shallow embeddings of
`src/causal_validation/validation/placebo.py`; definitions in namespace
`Transforms` model the transform/parameter layer.  Machine floats are
embedded as real numbers; NumPy/SciPy aggregation primitives are embedded
by their mathematical definitions, with the Student-t survival function
kept as an explicit functional parameter `sf` (it lives in SciPy, an
external collaborator).
-/

namespace Placebo

/-- Embedding of the value object returned by `Effect.percentage()`:
only its `.value` field is read by the aggregation. -/
structure PercentageEffect where
  value : ℝ

/-- Embedding of `azcausal.core.effect.Effect` as consumed here: the code
only ever calls `e.effect.percentage().value`. -/
structure Effect where
  percentage : PercentageEffect

/-- Embedding of `causal_validation.models.Result` as consumed by
`PlaceboTestResult._model_to_df`: a carrier of one effect estimate. -/
structure Result where
  effect : Effect

/-- The list comprehension `[e.effect.percentage().value for e in effects]`. -/
def effectValues (effects : List Result) : List ℝ :=
  effects.map (fun e => e.effect.percentage.value)

/-- `np.mean`: arithmetic mean of a list (sum divided by length). -/
noncomputable def np_mean (xs : List ℝ) : ℝ :=
  xs.sum / xs.length

/-- `np.std` with its default `ddof=0`: the population standard deviation,
the square root of the mean of squared deviations (divisor `n`). -/
noncomputable def np_std (xs : List ℝ) : ℝ :=
  Real.sqrt ((xs.map (fun x => (x - np_mean xs) ^ 2)).sum / xs.length)

/-- The sample variance with `ddof=1` (divisor `n - 1`), used internally by
`scipy.stats.ttest_1samp` for the t statistic denominator. -/
noncomputable def sampleVar (xs : List ℝ) : ℝ :=
  (xs.map (fun x => (x - np_mean xs) ^ 2)).sum / (xs.length - 1)

/-- `scipy.stats.ttest_1samp(xs, popmean, alternative="two-sided").pvalue`:
the t statistic is `(mean - popmean) / sqrt(var_ddof1 / n)` and the
two-sided p-value is twice the Student-t survival function at its absolute
value, with `n - 1` degrees of freedom.  `sf df x` stands for SciPy
Student-t survival function, an external collaborator. -/
noncomputable def ttest_1samp_pvalue (sf : ℕ → ℝ → ℝ) (xs : List ℝ)
    (popmean : ℝ) : ℝ :=
  2 * sf (xs.length - 1)
    |(np_mean xs - popmean) / Real.sqrt (sampleVar xs / xs.length)|

/-- One row of the summary table assembled by
`PlaceboTestResult._model_to_df`.  Column names with spaces are rendered as
snake-case fields. -/
structure Row where
  Model : String
  Dataset : String
  Effect : ℝ
  std_dev : ℝ
  std_error : ℝ
  p_value : ℝ

/-- Embedding of `PlaceboTestResult._model_to_df`: aggregates one effect
list into one summary row, mirroring the Python body line by line. -/
noncomputable def _model_to_df (sf : ℕ → ℝ → ℝ) (model_name dataset_name : String)
    (effects : List Result) : Row :=
  let _effects := effectValues effects
  let expected_effect := np_mean _effects
  let stddev_effect := np_std _effects
  let std_error := stddev_effect / Real.sqrt _effects.length
  let p_value := ttest_1samp_pvalue sf _effects 0
  { Model := model_name
    Dataset := dataset_name
    Effect := expected_effect
    std_dev := stddev_effect
    std_error := std_error
    p_value := p_value }

/-- Embedding of the `PlaceboSchema` pandera checks that can fail on a
row produced by `_model_to_df`: `Standard Deviation` and `Standard Error`
must each be strictly greater than 0 (`Check.greater_than(0.0)`);
the remaining columns are type coercions that always succeed on reals. -/
def PlaceboSchema.validRow (r : Row) : Prop :=
  0 < r.std_dev ∧ 0 < r.std_error

/-- Embedding of `PlaceboTestResult`: the dictionary from
`(model name, dataset name)` keys to per-control-unit result lists,
as an association list in insertion order. -/
structure PlaceboTestResult where
  effects : List ((String × String) × List Result)

open Classical in
/-- Embedding of `PlaceboTestResult.to_df`: build one row per dictionary
entry, then validate against `PlaceboSchema`.  A schema violation raises in
Python; here it yields `none` instead of a table. -/
noncomputable def PlaceboTestResult.to_df (sf : ℕ → ℝ → ℝ)
    (res : PlaceboTestResult) : Option (List Row) :=
  let dfs := res.effects.map (fun kv => _model_to_df sf kv.1.1 kv.1.2 kv.2)
  if ∀ r ∈ dfs, PlaceboSchema.validRow r then some dfs else none

/-- Embedding of the interface of `causal_validation.data.Dataset` that
`PlaceboTest.execute` consumes: the control-unit count `n_units` and the
leave-one-out view constructor `to_placebo_data(i)`.  `Data` is the opaque
type of panels passed to models. -/
structure Dataset (Data : Type) where
  n_units : ℕ
  to_placebo_data : ℕ → Data

/-- Embedding of `causal_validation.models.AZCausalWrapper` as consumed by
`execute`: an identifying `_model_name` and a callable evaluating one
panel; a Python exception is an `Except.error` of type `ε`. -/
structure AZCausalWrapper (Data ε : Type) where
  _model_name : String
  call : Data → Except ε Result

variable {Data ε : Type}

/-- Python dictionary assignment `d[key] = v` on an association list with
unique keys: replace the value in place when the key is present, append
the pair otherwise. -/
def dictInsert {K V : Type} [DecidableEq K] (k : K) (v : V) :
    List (K × V) → List (K × V)
  | [] => [(k, v)]
  | (k0, v0) :: rest =>
    if k0 = k then (k, v) :: rest else (k0, v0) :: dictInsert k v rest

/-- Python dictionary read `d[key]` on an association list: the value at
the first occurrence of the key, if any. -/
def dictGet? {K V : Type} [DecidableEq K] : List (K × V) → K → Option V
  | [], _ => none
  | (k0, v0) :: rest, k => if k0 = k then some v0 else dictGet? rest k

/-- The value paired with the last occurrence of a key in a pair list. -/
def lastVal? {K V : Type} [DecidableEq K] (k : K) : List (K × V) → Option V
  | [] => none
  | kv :: rest =>
    match lastVal? k rest with
    | some v => some v
    | none => if kv.1 = k then some kv.2 else none

/-- A Python `for` loop collecting `f x` for each element in order, where
`f` may raise: the first raised exception aborts the loop and propagates. -/
def mapExcept {α β : Type} (f : α → Except ε β) : List α → Except ε (List β)
  | [] => .ok []
  | x :: xs => do
    let y ← f x
    let ys ← mapExcept f xs
    pure (y :: ys)

/-- The innermost loop of `PlaceboTest.execute`: one model evaluation per
control-unit index `i in range(dataset.n_units)` on
`dataset.to_placebo_data(i)`, collected in order. -/
def runUnits (m : AZCausalWrapper Data ε) (d : Dataset Data) :
    Except ε (List Result) :=
  mapExcept (fun i => m.call (d.to_placebo_data i)) (List.range d.n_units)

/-- The middle loop of `PlaceboTest.execute`: for each model, run the unit
loop and store the list under `(model._model_name, data_name)`. -/
def modelLoop (data_name : String) (d : Dataset Data) :
    List (AZCausalWrapper Data ε) →
    List ((String × String) × List Result) →
    Except ε (List ((String × String) × List Result))
  | [], results => .ok results
  | m :: ms, results => do
    let model_result ← runUnits m d
    modelLoop data_name d ms
      (dictInsert (m._model_name, data_name) model_result results)

/-- The outer loop of `PlaceboTest.execute` over the named datasets of
`self.dataset_dict`. -/
def datasetLoop (models : List (AZCausalWrapper Data ε)) :
    List (String × Dataset Data) →
    List ((String × String) × List Result) →
    Except ε (List ((String × String) × List Result))
  | [], results => .ok results
  | p :: rest, results => do
    let results2 ← modelLoop p.1 p.2 models results
    datasetLoop models rest results2

/-- Embedding of `PlaceboTest.execute`: the triple nested loop over
datasets, models and control units, accumulating the results dictionary
(progress reporting omitted: it is purely observational). -/
def execute (models : List (AZCausalWrapper Data ε))
    (dataset_dict : List (String × Dataset Data)) :
    Except ε PlaceboTestResult :=
  (datasetLoop models dataset_dict []).map PlaceboTestResult.mk

/-- Total extraction of the payload of an `Except`, with a default. -/
def okD {α : Type} (e : Except ε α) (dflt : α) : α :=
  match e with
  | .ok a => a
  | .error _ => dflt

/-- The flat, in-loop-order list of `(key, effect list)` pairs that
`execute` inserts into its results dictionary, assuming every model call
succeeds (the `okD` default is never reached then). -/
def pairList (models : List (AZCausalWrapper Data ε)) :
    List (String × Dataset Data) → List ((String × String) × List Result)
  | [] => []
  | p :: rest =>
    models.map (fun m => ((m._model_name, p.1), okD (runUnits m p.2) []))
      ++ pairList models rest

/-- A wrapper over natural-number panels that always succeeds with the
given percentage effect; used to instantiate theorems at concrete
inputs. -/
def okModel (name : String) (x : ℝ) : AZCausalWrapper ℕ Unit :=
  AZCausalWrapper.mk name
    (fun _ => .ok (Result.mk (Effect.mk (PercentageEffect.mk x))))

/-- A wrapper over natural-number panels that always raises the given
error string. -/
def failModel (name e : String) : AZCausalWrapper ℕ String :=
  AZCausalWrapper.mk name (fun _ => .error e)

/-- A dataset interface with `n` control units whose placebo views are
the unit indices themselves. -/
def natDataset (n : ℕ) : Dataset ℕ :=
  Dataset.mk n (fun i => i)

/-- Written from the words of the spec (§4.6): `mean = average(e_1..e_n)`. -/
noncomputable def spec_mean (es : List ℝ) : ℝ := es.sum / es.length

/-- Written from the words of the spec (§4.6): the population standard
deviation of the sample, with divisor `n`. -/
noncomputable def spec_pop_stddev (es : List ℝ) : ℝ :=
  Real.sqrt ((es.map (fun e => (e - spec_mean es) ^ 2)).sum / es.length)

/-- Written from the words of the spec (§4.6):
`standard_error = stddev / sqrt(n)`. -/
noncomputable def spec_standard_error (es : List ℝ) : ℝ :=
  spec_pop_stddev es / Real.sqrt es.length

/-- Written from the words of the spec (§4.6): the two-sided one-sample
t test of the null hypothesis that the true mean is 0 over the sample:
twice the Student-t upper tail (survival function `sf`, `n - 1` degrees of
freedom) at the absolute t statistic, whose denominator is the standard
error of the mean computed from the Bessel-corrected sample variance
(divisor `n - 1`). -/
noncomputable def spec_p_value (sf : ℕ → ℝ → ℝ) (es : List ℝ) : ℝ :=
  2 * sf (es.length - 1)
    |(spec_mean es - 0) /
      Real.sqrt ((es.map (fun e => (e - spec_mean es) ^ 2)).sum /
        (es.length - 1) / es.length)|

end Placebo

namespace Transforms

/-- Modelled from the spec: the probability-distribution collaborator of a
unit-varying parameter (a `scipy.stats` frozen distribution in the source;
`causal_validation/transforms/parameter.py` is absent from `src/`).
`sample s i` is the `i`-th variate of the deterministic stream derived
from seed `s`. -/
structure Distribution where
  sample : ℕ → ℕ → ℝ

/-- Modelled from the spec (§3, §9): `causal_validation.transforms.parameter`
is absent from `src/`; a Parameter is either a fixed scalar or a
unit-varying value drawn per unit from a distribution with an optional
reproducible seed. -/
inductive Parameter where
  | Fixed (value : ℝ)
  | UnitVarying (sampling_dist : Distribution) (random_state : Option ℕ)

/-- Modelled from the spec (§4.1): resolving a Parameter against a unit
count.  A scalar resolves to `n_units` copies; a unit-varying parameter
with an explicit seed draws from the private stream derived from that seed
alone, while an unseeded one draws from the ambient random source
`ambient_seed`, which may differ between calls.  A non-positive unit count
is an InvalidConfiguration error. -/
def Parameter.resolve (p : Parameter) (n_units : ℕ) (ambient_seed : ℕ) :
    Except String (List ℝ) :=
  if n_units = 0 then .error "InvalidConfiguration"
  else
    match p with
    | .Fixed v => .ok (List.replicate n_units v)
    | .UnitVarying d (some s) => .ok ((List.range n_units).map (d.sample s))
    | .UnitVarying d none =>
      .ok ((List.range n_units).map (d.sample ambient_seed))

/-- Modelled from the spec (§3): the panel data model of
`causal_validation.data.Dataset` (absent from `src/`): pre- and
post-intervention control and treated matrices, stored time-major (one row
per time step), together with their declared dimensions. -/
structure Dataset where
  n_pre : ℕ
  n_post : ℕ
  n_control : ℕ
  n_treated : ℕ
  Xtr : List (List ℝ)
  ytr : List (List ℝ)
  Xte : List (List ℝ)
  yte : List (List ℝ)

/-- The §3 shape invariants: time axes match the declared period lengths,
unit counts are consistent across slots, and each period and each group is
non-empty. -/
def Dataset.WellFormed (D : Dataset) : Prop :=
  D.Xtr.length = D.n_pre ∧ D.ytr.length = D.n_pre ∧
  D.Xte.length = D.n_post ∧ D.yte.length = D.n_post ∧
  (∀ row ∈ D.Xtr, row.length = D.n_control) ∧
  (∀ row ∈ D.Xte, row.length = D.n_control) ∧
  (∀ row ∈ D.ytr, row.length = D.n_treated) ∧
  (∀ row ∈ D.yte, row.length = D.n_treated) ∧
  1 ≤ D.n_pre ∧ 1 ≤ D.n_post ∧ 1 ≤ D.n_control ∧ 1 ≤ D.n_treated

/-- Full-span control matrix: pre-period rows above post-period rows. -/
def Dataset.control_units (D : Dataset) : List (List ℝ) := D.Xtr ++ D.Xte

/-- Full-span treated matrix: pre-period rows above post-period rows. -/
def Dataset.treated_units (D : Dataset) : List (List ℝ) := D.ytr ++ D.yte

/-- Entry of a time-major matrix at time row `t`, unit column `u`
(out-of-range reads default to `0`; theorems only use in-range indices). -/
def entry (mat : List (List ℝ)) (t u : ℕ) : ℝ :=
  (mat.getD t []).getD u 0

/-- Add `delta u` to the entry of each unit `u` of one time-step row;
`u` counts from the given starting index. -/
def deformRow (delta : ℕ → ℝ) : ℕ → List ℝ → List ℝ
  | _, [] => []
  | u, v :: vs => (v + delta u) :: deformRow delta (u + 1) vs

/-- Add `delta u t` elementwise to a time-major matrix whose first row
sits at global time step `t`. -/
def deformMat (delta : ℕ → ℕ → ℝ) : ℕ → List (List ℝ) → List (List ℝ)
  | _, [] => []
  | t, row :: rest =>
    deformRow (fun u => delta u t) 0 row :: deformMat delta (t + 1) rest

/-- Modelled from the spec (§4.2): the Periodic transform of
`causal_validation.transforms` (absent from `src/`), carrying its four
Parameters. -/
structure Periodic where
  amplitude : Parameter
  frequency : Parameter
  shift : Parameter
  offset : Parameter

/-- The §4.2 sinusoidal deformation at global time `t` for unit `u`, the
parameter vectors being the per-unit resolutions:
`offset + amplitude * sin(2π * frequency * t / T + shift)`. -/
noncomputable def periodicDelta (amp freq sh off : List ℝ) (T : ℕ)
    (u t : ℕ) : ℝ :=
  off.getD u 0 + amp.getD u 0 *
    Real.sin (2 * Real.pi * freq.getD u 0 * t / T + sh.getD u 0)

/-- Modelled from the spec (§4.2): applying Periodic to a Dataset.  Each
Parameter is resolved once per call, independently against the control and
the treated unit count; every entry of every slot receives the sinusoidal
deformation, with `T` the full series length and `t` the global time index
(post-period rows start at `n_pre`). -/
noncomputable def Periodic.apply (P : Periodic) (D : Dataset)
    (ambient_seed : ℕ) : Except String Dataset := do
  let T := D.n_pre + D.n_post
  let ampC ← P.amplitude.resolve D.n_control ambient_seed
  let freqC ← P.frequency.resolve D.n_control ambient_seed
  let shC ← P.shift.resolve D.n_control ambient_seed
  let offC ← P.offset.resolve D.n_control ambient_seed
  let ampT ← P.amplitude.resolve D.n_treated ambient_seed
  let freqT ← P.frequency.resolve D.n_treated ambient_seed
  let shT ← P.shift.resolve D.n_treated ambient_seed
  let offT ← P.offset.resolve D.n_treated ambient_seed
  pure { D with
    Xtr := deformMat (periodicDelta ampC freqC shC offC T) 0 D.Xtr
    Xte := deformMat (periodicDelta ampC freqC shC offC T) D.n_pre D.Xte
    ytr := deformMat (periodicDelta ampT freqT shT offT T) 0 D.ytr
    yte := deformMat (periodicDelta ampT freqT shT offT T) D.n_pre D.yte }

/-- Modelled from the spec (§4.3): the Trend transform of
`causal_validation.transforms` (absent from `src/`): a fixed positive
integer degree and two Parameters. -/
structure Trend where
  degree : ℕ
  coefficient : Parameter
  intercept : Parameter

/-- The §4.3 polynomial deformation at global time `t` for unit `u`:
`intercept + coefficient * t^degree` with the time index starting at 0. -/
def trendDelta (coef inter : List ℝ) (degree : ℕ) (u t : ℕ) : ℝ :=
  inter.getD u 0 + coef.getD u 0 * (t : ℝ) ^ degree

/-- Modelled from the spec (§4.3): applying Trend to a Dataset, with the
same resolution and indexing scheme as `Periodic.apply`. -/
def Trend.apply (Tr : Trend) (D : Dataset) (ambient_seed : ℕ) :
    Except String Dataset := do
  let coefC ← Tr.coefficient.resolve D.n_control ambient_seed
  let interC ← Tr.intercept.resolve D.n_control ambient_seed
  let coefT ← Tr.coefficient.resolve D.n_treated ambient_seed
  let interT ← Tr.intercept.resolve D.n_treated ambient_seed
  pure { D with
    Xtr := deformMat (trendDelta coefC interC Tr.degree) 0 D.Xtr
    Xte := deformMat (trendDelta coefC interC Tr.degree) D.n_pre D.Xte
    ytr := deformMat (trendDelta coefT interT Tr.degree) 0 D.ytr
    yte := deformMat (trendDelta coefT interT Tr.degree) D.n_pre D.yte }

/-- The per-row length profile of a matrix; two matrices with the same
profile have identical shape. -/
def shapeOf (mat : List (List ℝ)) : List ℕ :=
  mat.map List.length

/-- The discrete Fourier transform `np.fft.fft` computes along the time
axis: `X k = Σ_{t<T} x t * exp(-2πi k t / T)`. -/
noncomputable def dft (x : ℕ → ℝ) (T k : ℕ) : ℂ :=
  ∑ t ∈ Finset.range T,
    (x t : ℂ) * Complex.exp (-(2 * Real.pi * Complex.I * k * t) / T)

/-- A single-unit, constant-valued panel: every entry of every slot is
`b`; the constant base series of the spectral-peak property. -/
def constDataset (b : ℝ) (n_pre n_post : ℕ) : Dataset where
  n_pre := n_pre
  n_post := n_post
  n_control := 1
  n_treated := 1
  Xtr := List.replicate n_pre [b]
  ytr := List.replicate n_pre [b]
  Xte := List.replicate n_post [b]
  yte := List.replicate n_post [b]

/-- The time series of unit column `u` of a time-major matrix. -/
def colSeries (mat : List (List ℝ)) (u : ℕ) (t : ℕ) : ℝ :=
  entry mat t u

end Transforms

/-- The exponential `exp(2πi m t / T)`, the building block of the discrete
Fourier spectrum computation. -/
noncomputable def rootExp (T : ℕ) (m : ℤ) (t : ℕ) : ℂ :=
  Complex.exp (2 * Real.pi * Complex.I * m * t / T)

section AggregationTheorems

open Placebo

lemma length_ne_zero_real {α : Type} {xs : List α} (h : xs ≠ []) :
    (xs.length : ℝ) ≠ 0 := by
  have : xs.length ≠ 0 := fun h0 => h (List.length_eq_zero.mp h0)
  exact_mod_cast this

lemma list_sum_of_all_eq {xs : List ℝ} {c : ℝ} (h : ∀ x ∈ xs, x = c) :
    xs.sum = xs.length * c := by
  induction xs with
  | nil => simp
  | cons x rest ih =>
    have hx : x = c := h x (List.mem_cons_self x rest)
    have hr : rest.sum = rest.length * c :=
      ih (fun y hy => h y (List.mem_cons_of_mem x hy))
    simp [hx, hr, List.length_cons]
    ring

lemma np_mean_of_all_eq {xs : List ℝ} {c : ℝ} (hne : xs ≠ [])
    (h : ∀ x ∈ xs, x = c) : np_mean xs = c := by
  unfold np_mean
  rw [list_sum_of_all_eq h]
  exact mul_div_cancel_left₀ c (length_ne_zero_real hne)

lemma np_std_of_all_eq {xs : List ℝ} {c : ℝ} (hne : xs ≠ [])
    (h : ∀ x ∈ xs, x = c) : np_std xs = 0 := by
  unfold np_std
  have hmap : xs.map (fun x => (x - np_mean xs) ^ 2) =
      xs.map (fun _ => (0 : ℝ)) := by
    apply List.map_congr_left
    intro x hx
    rw [h x hx, np_mean_of_all_eq hne h, sub_self]
    ring
  rw [hmap]
  simp

/-- Claim C2: for every non-empty effect list, the aggregation of
`PlaceboTestResult._model_to_df` computes the mean as `sum/n`, the
standard deviation as the population standard deviation (divisor `n`, not
`n - 1`), the standard error as `stddev / sqrt n`, and the p-value as the
two-sided one-sample t test of the null hypothesis that the true mean is
0 over the sample. -/
theorem aggregation_matches_spec (sf : ℕ → ℝ → ℝ)
    (model_name dataset_name : String) (effects : List Result)
    (hne : effects ≠ []) :
    (_model_to_df sf model_name dataset_name effects).Effect =
        spec_mean (effectValues effects) ∧
    (_model_to_df sf model_name dataset_name effects).std_dev =
        spec_pop_stddev (effectValues effects) ∧
    (_model_to_df sf model_name dataset_name effects).std_error =
        spec_standard_error (effectValues effects) ∧
    (_model_to_df sf model_name dataset_name effects).p_value =
        spec_p_value sf (effectValues effects) := by
  refine ⟨rfl, rfl, ?_, ?_⟩
  · simp only [_model_to_df, spec_standard_error, spec_pop_stddev, np_std,
      spec_mean, np_mean, effectValues, List.length_map]
  · simp only [_model_to_df, ttest_1samp_pvalue, spec_p_value, sampleVar,
      spec_mean, np_mean, effectValues, List.length_map]

/-- Witness for C2 at the one-element effect list with value 1. -/
theorem aggregation_matches_spec_witness :
    ([Result.mk (Effect.mk (PercentageEffect.mk 1))] ≠ []) ∧
    ((_model_to_df (fun _ x => x) "M" "D"
        [Result.mk (Effect.mk (PercentageEffect.mk 1))]).Effect =
      spec_mean (effectValues
        [Result.mk (Effect.mk (PercentageEffect.mk 1))]) ∧
    (_model_to_df (fun _ x => x) "M" "D"
        [Result.mk (Effect.mk (PercentageEffect.mk 1))]).std_dev =
      spec_pop_stddev (effectValues
        [Result.mk (Effect.mk (PercentageEffect.mk 1))]) ∧
    (_model_to_df (fun _ x => x) "M" "D"
        [Result.mk (Effect.mk (PercentageEffect.mk 1))]).std_error =
      spec_standard_error (effectValues
        [Result.mk (Effect.mk (PercentageEffect.mk 1))]) ∧
    (_model_to_df (fun _ x => x) "M" "D"
        [Result.mk (Effect.mk (PercentageEffect.mk 1))]).p_value =
      spec_p_value (fun _ x => x) (effectValues
        [Result.mk (Effect.mk (PercentageEffect.mk 1))])) :=
  ⟨List.cons_ne_nil _ _,
   aggregation_matches_spec (fun _ x => x) "M" "D" _ (List.cons_ne_nil _ _)⟩

/-- Claim C3: an effect list whose percentage values are all equal (in
particular any single-element list) aggregates to Standard Deviation 0 and
Standard Error 0, while `PlaceboSchema` requires both to be strictly
positive, so `PlaceboTestResult.to_df` fails schema validation instead of
returning a table. -/
theorem degenerate_effects_fail_schema (sf : ℕ → ℝ → ℝ)
    (res : PlaceboTestResult) (k : String × String)
    (effects : List Result) (c : ℝ)
    (hmem : (k, effects) ∈ res.effects) (hne : effects ≠ [])
    (hconst : ∀ e ∈ effects, e.effect.percentage.value = c) :
    (_model_to_df sf k.1 k.2 effects).std_dev = 0 ∧
    (_model_to_df sf k.1 k.2 effects).std_error = 0 ∧
    res.to_df sf = none := by
  have hvne : effectValues effects ≠ [] := by
    simpa [effectValues] using hne
  have hvconst : ∀ x ∈ effectValues effects, x = c := by
    intro x hx
    obtain ⟨e, he, rfl⟩ := List.mem_map.mp hx
    exact hconst e he
  have hstd : (_model_to_df sf k.1 k.2 effects).std_dev = 0 := by
    simp only [_model_to_df]
    exact np_std_of_all_eq hvne hvconst
  have hse : (_model_to_df sf k.1 k.2 effects).std_error = 0 := by
    simp only [_model_to_df]
    rw [show np_std (effectValues effects) = 0 from
      np_std_of_all_eq hvne hvconst]
    exact zero_div _
  refine ⟨hstd, hse, ?_⟩
  unfold PlaceboTestResult.to_df
  rw [if_neg]
  intro hall
  have hrow : _model_to_df sf k.1 k.2 effects ∈
      res.effects.map (fun kv => _model_to_df sf kv.1.1 kv.1.2 kv.2) :=
    List.mem_map.mpr ⟨(k, effects), hmem, rfl⟩
  have := (hall _ hrow).1
  rw [hstd] at this
  exact lt_irrefl 0 this

/-- Witness for C3 at a singleton dictionary whose only effect list is the
single value 1. -/
theorem degenerate_effects_fail_schema_witness :
    ((("M", "D"), [Result.mk (Effect.mk (PercentageEffect.mk 1))]) ∈
      (PlaceboTestResult.mk
        [(("M", "D"),
          [Result.mk (Effect.mk (PercentageEffect.mk 1))])]).effects) ∧
    ([Result.mk (Effect.mk (PercentageEffect.mk 1))] ≠ []) ∧
    (∀ e ∈ [Result.mk (Effect.mk (PercentageEffect.mk 1))],
        e.effect.percentage.value = 1) ∧
    ((PlaceboTestResult.mk
        [(("M", "D"),
          [Result.mk (Effect.mk (PercentageEffect.mk 1))])]).to_df
      (fun _ x => x) = none) := by
  have hmem : ((("M", "D"),
      [Result.mk (Effect.mk (PercentageEffect.mk 1))]) ∈
      (PlaceboTestResult.mk
        [(("M", "D"),
          [Result.mk (Effect.mk (PercentageEffect.mk 1))])]).effects) :=
    List.mem_singleton.mpr rfl
  have hconst : ∀ e ∈ [Result.mk (Effect.mk (PercentageEffect.mk 1))],
      e.effect.percentage.value = 1 := by
    intro e he
    rw [List.mem_singleton] at he
    subst he
    rfl
  exact ⟨hmem, List.cons_ne_nil _ _, hconst,
    (degenerate_effects_fail_schema (fun _ x => x) _ ("M", "D") _ 1 hmem
      (List.cons_ne_nil _ _) hconst).2.2⟩

lemma np_mean_perm {xs ys : List ℝ} (h : xs.Perm ys) :
    np_mean xs = np_mean ys := by
  unfold np_mean
  rw [h.sum_eq, h.length_eq]

lemma sq_dev_sum_perm {xs ys : List ℝ} (h : xs.Perm ys) (m : ℝ) :
    (xs.map (fun x => (x - m) ^ 2)).sum =
    (ys.map (fun x => (x - m) ^ 2)).sum :=
  (h.map _).sum_eq

lemma np_std_perm {xs ys : List ℝ} (h : xs.Perm ys) :
    np_std xs = np_std ys := by
  unfold np_std
  rw [np_mean_perm h, sq_dev_sum_perm h (np_mean ys), h.length_eq]

lemma sampleVar_perm {xs ys : List ℝ} (h : xs.Perm ys) :
    sampleVar xs = sampleVar ys := by
  unfold sampleVar
  rw [np_mean_perm h, sq_dev_sum_perm h (np_mean ys), h.length_eq]

lemma ttest_1samp_pvalue_perm (sf : ℕ → ℝ → ℝ) {xs ys : List ℝ}
    (h : xs.Perm ys) (popmean : ℝ) :
    ttest_1samp_pvalue sf xs popmean = ttest_1samp_pvalue sf ys popmean := by
  unfold ttest_1samp_pvalue
  rw [np_mean_perm h, sampleVar_perm h, h.length_eq]

/-- Claim C5: the aggregated summary record of `_model_to_df` is invariant
under permutation of the effect list: the aggregation is a function of the
unordered multiset of effects only. -/
theorem aggregation_perm_invariant (sf : ℕ → ℝ → ℝ)
    (model_name dataset_name : String) {effects1 effects2 : List Result}
    (h : effects1.Perm effects2) :
    _model_to_df sf model_name dataset_name effects1 =
    _model_to_df sf model_name dataset_name effects2 := by
  have hv : (effectValues effects1).Perm (effectValues effects2) :=
    h.map _
  simp only [_model_to_df]
  rw [np_mean_perm hv, np_std_perm hv, ttest_1samp_pvalue_perm sf hv,
    hv.length_eq]

/-- Witness for C5 at the two-element effect list `[2, 7]` against its
reversal. -/
theorem aggregation_perm_invariant_witness :
    ([Result.mk (Effect.mk (PercentageEffect.mk 2)),
      Result.mk (Effect.mk (PercentageEffect.mk 7))].Perm
     [Result.mk (Effect.mk (PercentageEffect.mk 7)),
      Result.mk (Effect.mk (PercentageEffect.mk 2))]) ∧
    (_model_to_df (fun _ x => x) "M" "D"
        [Result.mk (Effect.mk (PercentageEffect.mk 2)),
         Result.mk (Effect.mk (PercentageEffect.mk 7))] =
      _model_to_df (fun _ x => x) "M" "D"
        [Result.mk (Effect.mk (PercentageEffect.mk 7)),
         Result.mk (Effect.mk (PercentageEffect.mk 2))]) :=
  ⟨List.Perm.swap _ _ _,
   aggregation_perm_invariant (fun _ x => x) "M" "D"
     (List.Perm.swap _ _ _)⟩

end AggregationTheorems

section ExecuteTheorems

open Placebo

variable {Data ε : Type}

lemma mapExcept_ok_forall {α β : Type} {f : α → Except ε β} :
    ∀ {xs : List α} {ys : List β}, mapExcept f xs = .ok ys →
      ∀ x ∈ xs, ∃ y, f x = .ok y := by
  intro xs
  induction xs with
  | nil => intro ys _ x hx; exact absurd hx (List.not_mem_nil x)
  | cons x0 rest ih =>
    intro ys h x hx
    rcases hfx : f x0 with e | y0
    · rw [mapExcept, hfx] at h
      exact absurd h (by simp [Bind.bind, Except.bind])
    · rw [mapExcept, hfx] at h
      rcases hm : mapExcept f rest with e | ys0
      · rw [hm] at h
        exact absurd h (by simp [Bind.bind, Except.bind])
      · rcases List.mem_cons.mp hx with rfl | hx2
        · exact ⟨y0, hfx⟩
        · exact ih hm x hx2

lemma mapExcept_ok_of_forall {α β : Type} {f : α → Except ε β}
    {xs : List α} (h : ∀ x ∈ xs, ∃ y, f x = .ok y) :
    ∃ ys, mapExcept f xs = .ok ys ∧ ys.length = xs.length := by
  induction xs with
  | nil => exact ⟨[], rfl, rfl⟩
  | cons x0 rest ih =>
    obtain ⟨y0, hy0⟩ := h x0 (List.mem_cons_self x0 rest)
    obtain ⟨ys, hys, hlen⟩ :=
      ih (fun x hx => h x (List.mem_cons_of_mem x0 hx))
    refine ⟨y0 :: ys, ?_, by simp [hlen]⟩
    rw [mapExcept, hy0, hys]
    rfl

lemma mapExcept_error_mem {α β : Type} {f : α → Except ε β} :
    ∀ {xs : List α} {e : ε}, mapExcept f xs = .error e →
      ∃ x ∈ xs, f x = .error e := by
  intro xs
  induction xs with
  | nil => intro e h; exact absurd h (by simp [mapExcept])
  | cons x0 rest ih =>
    intro e h
    rcases hfx : f x0 with e0 | y0
    · rw [mapExcept, hfx] at h
      have : e0 = e := by
        simpa [Bind.bind, Except.bind] using h
      exact ⟨x0, List.mem_cons_self x0 rest, by rw [hfx, this]⟩
    · rw [mapExcept, hfx] at h
      rcases hm : mapExcept f rest with e1 | ys0
      · rw [hm] at h
        have : e1 = e := by
          simpa [Bind.bind, Except.bind] using h
        obtain ⟨x, hx, hfe⟩ := ih (by rw [hm, this])
        exact ⟨x, List.mem_cons_of_mem x0 hx, hfe⟩
      · rw [hm] at h
        exact absurd h (by simp [Bind.bind, Except.bind, pure, Except.pure])

lemma runUnits_ok_of {m : AZCausalWrapper Data ε} {d : Dataset Data}
    (h : ∀ i < d.n_units, ∃ r, m.call (d.to_placebo_data i) = .ok r) :
    ∃ l, runUnits m d = .ok l ∧ l.length = d.n_units := by
  have h2 : ∀ i ∈ List.range d.n_units,
      ∃ r, m.call (d.to_placebo_data i) = .ok r :=
    fun i hi => h i (List.mem_range.mp hi)
  obtain ⟨ys, hys, hlen⟩ := mapExcept_ok_of_forall h2
  exact ⟨ys, hys, by rw [hlen, List.length_range]⟩

lemma runUnits_error_mem {m : AZCausalWrapper Data ε} {d : Dataset Data}
    {e : ε} (h : runUnits m d = .error e) :
    ∃ i < d.n_units, m.call (d.to_placebo_data i) = .error e := by
  obtain ⟨i, hi, hcall⟩ := mapExcept_error_mem h
  exact ⟨i, List.mem_range.mp hi, hcall⟩

lemma modelLoop_ok_of {models : List (AZCausalWrapper Data ε)}
    {d : Dataset Data} (nm : String)
    (h : ∀ m ∈ models, ∃ l, runUnits m d = .ok l) :
    ∀ acc, modelLoop nm d models acc = .ok
      (List.foldl (fun a kv => dictInsert kv.1 kv.2 a) acc
        (models.map (fun m => ((m._model_name, nm), okD (runUnits m d) [])))) := by
  induction models with
  | nil => intro acc; rfl
  | cons m0 rest ih =>
    intro acc
    obtain ⟨l0, hl0⟩ := h m0 (List.mem_cons_self m0 rest)
    rw [modelLoop, hl0]
    have hrest := ih (fun m hm => h m (List.mem_cons_of_mem m0 hm))
    simp only [List.map_cons, List.foldl_cons, hl0, okD]
    exact hrest _

lemma modelLoop_ok_forall {models : List (AZCausalWrapper Data ε)}
    {d : Dataset Data} {nm : String} :
    ∀ {acc out}, modelLoop nm d models acc = .ok out →
      ∀ m ∈ models, ∃ l, runUnits m d = .ok l := by
  induction models with
  | nil => intro _ _ _ m hm; exact absurd hm (List.not_mem_nil m)
  | cons m0 rest ih =>
    intro acc out h m hm
    rcases hr : runUnits m0 d with e | l0
    · rw [modelLoop, hr] at h
      exact absurd h (by simp [Bind.bind, Except.bind])
    · rw [modelLoop, hr] at h
      rcases List.mem_cons.mp hm with rfl | hm2
      · exact ⟨l0, hr⟩
      · exact ih h m hm2

lemma modelLoop_error_mem {models : List (AZCausalWrapper Data ε)}
    {d : Dataset Data} {nm : String} :
    ∀ {acc} {e : ε}, modelLoop nm d models acc = .error e →
      ∃ m ∈ models, runUnits m d = .error e := by
  induction models with
  | nil => intro _ e h; exact absurd h (by simp [modelLoop])
  | cons m0 rest ih =>
    intro acc e h
    rcases hr : runUnits m0 d with e0 | l0
    · rw [modelLoop, hr] at h
      have : e0 = e := by simpa [Bind.bind, Except.bind] using h
      exact ⟨m0, List.mem_cons_self m0 rest, by rw [hr, this]⟩
    · rw [modelLoop, hr] at h
      obtain ⟨m, hm, hme⟩ := ih h
      exact ⟨m, List.mem_cons_of_mem m0 hm, hme⟩

lemma datasetLoop_ok_of {models : List (AZCausalWrapper Data ε)}
    {dd : List (String × Dataset Data)}
    (h : ∀ p ∈ dd, ∀ m ∈ models, ∃ l, runUnits m p.2 = .ok l) :
    ∀ acc, datasetLoop models dd acc = .ok
      (List.foldl (fun a kv => dictInsert kv.1 kv.2 a) acc
        (pairList models dd)) := by
  induction dd with
  | nil => intro acc; rfl
  | cons p rest ih =>
    intro acc
    have h0 := modelLoop_ok_of p.1
      (h p (List.mem_cons_self p rest)) acc
    rw [datasetLoop, h0]
    have hrest := ih (fun q hq => h q (List.mem_cons_of_mem p hq))
    simp only [pairList, List.foldl_append]
    exact hrest _

lemma datasetLoop_ok_forall {models : List (AZCausalWrapper Data ε)}
    {dd : List (String × Dataset Data)} :
    ∀ {acc out}, datasetLoop models dd acc = .ok out →
      ∀ p ∈ dd, ∀ m ∈ models, ∃ l, runUnits m p.2 = .ok l := by
  induction dd with
  | nil => intro _ _ _ p hp; exact absurd hp (List.not_mem_nil p)
  | cons p0 rest ih =>
    intro acc out h p hp m hm
    rcases hml : modelLoop p0.1 p0.2 models acc with e | acc2
    · rw [datasetLoop, hml] at h
      exact absurd h (by simp [Bind.bind, Except.bind])
    · rw [datasetLoop, hml] at h
      rcases List.mem_cons.mp hp with rfl | hp2
      · exact modelLoop_ok_forall hml m hm
      · exact ih h p hp2 m hm

lemma datasetLoop_error_mem {models : List (AZCausalWrapper Data ε)}
    {dd : List (String × Dataset Data)} :
    ∀ {acc} {e : ε}, datasetLoop models dd acc = .error e →
      ∃ p ∈ dd, ∃ m ∈ models, runUnits m p.2 = .error e := by
  induction dd with
  | nil => intro _ e h; exact absurd h (by simp [datasetLoop])
  | cons p0 rest ih =>
    intro acc e h
    rcases hml : modelLoop p0.1 p0.2 models acc with e0 | acc2
    · rw [datasetLoop, hml] at h
      have : e0 = e := by simpa [Bind.bind, Except.bind] using h
      obtain ⟨m, hm, hme⟩ := modelLoop_error_mem (by rw [hml, this])
      exact ⟨p0, List.mem_cons_self p0 rest, m, hm, hme⟩
    · rw [datasetLoop, hml] at h
      obtain ⟨p, hp, m, hm, hme⟩ := ih h
      exact ⟨p, List.mem_cons_of_mem p0 hp, m, hm, hme⟩

lemma mem_keys_dictInsert {K V : Type} [DecidableEq K] (k a : K) (v : V) :
    ∀ d : List (K × V),
      (a ∈ (dictInsert k v d).map Prod.fst ↔
        a = k ∨ a ∈ d.map Prod.fst) := by
  intro d
  induction d with
  | nil => simp [dictInsert]
  | cons kv rest ih =>
    rw [show kv = (kv.1, kv.2) from rfl, dictInsert]
    by_cases hk : kv.1 = k
    · rw [if_pos hk]
      simp only [List.map_cons, List.mem_cons, hk]
      tauto
    · rw [if_neg hk]
      simp only [List.map_cons, List.mem_cons, ih]
      tauto

lemma dictInsert_fresh {K V : Type} [DecidableEq K] {k : K} (v : V) :
    ∀ {d : List (K × V)}, k ∉ d.map Prod.fst →
      dictInsert k v d = d ++ [(k, v)] := by
  intro d
  induction d with
  | nil => intro _; rfl
  | cons kv rest ih =>
    intro h
    have hk : kv.1 ≠ k := by
      intro hkk
      exact h (by simp [hkk])
    rw [show kv = (kv.1, kv.2) from rfl, dictInsert, if_neg hk]
    rw [ih (fun hmem => h (by simp [hmem]))]
    rfl

lemma foldl_dictInsert_fresh {K V : Type} [DecidableEq K] :
    ∀ {l acc : List (K × V)}, (l.map Prod.fst).Nodup →
      (∀ k ∈ l.map Prod.fst, k ∉ acc.map Prod.fst) →
      List.foldl (fun a kv => dictInsert kv.1 kv.2 a) acc l = acc ++ l := by
  intro l
  induction l with
  | nil => intro acc _ _; simp
  | cons kv rest ih =>
    intro acc hnd hfresh
    have hk0 : kv.1 ∉ acc.map Prod.fst :=
      hfresh kv.1 (by simp)
    have hnd2 : (rest.map Prod.fst).Nodup := by
      simpa using hnd.of_cons
    have hknotrest : kv.1 ∉ rest.map Prod.fst := by
      have := hnd
      simp only [List.map_cons, List.nodup_cons] at this
      exact this.1
    rw [List.foldl_cons, dictInsert_fresh kv.2 hk0]
    rw [ih hnd2 ?fresh]
    · simp
    case fresh =>
      intro k hk
      intro hmem
      rw [List.map_append] at hmem
      rcases List.mem_append.mp hmem with h1 | h2
      · exact hfresh k (by simp [hk]) h1
      · simp only [List.map_cons, List.map_nil, List.mem_singleton] at h2
        subst h2
        exact hknotrest hk

lemma dictGet?_dictInsert {K V : Type} [DecidableEq K] (k k2 : K) (v : V) :
    ∀ d : List (K × V),
      dictGet? (dictInsert k v d) k2 =
        if k2 = k then some v else dictGet? d k2 := by
  intro d
  induction d with
  | nil =>
    by_cases h : k2 = k
    · subst h
      simp [dictInsert, dictGet?]
    · have ha : ¬ k = k2 := fun hh => h hh.symm
      simp [dictInsert, dictGet?, h, ha]
  | cons kv rest ih =>
    rw [show kv = (kv.1, kv.2) from rfl, dictInsert]
    by_cases hk : kv.1 = k
    · rw [if_pos hk]
      by_cases h2 : k2 = k
      · subst h2
        simp [dictGet?]
      · have ha : ¬ k = k2 := fun hh => h2 hh.symm
        have hb : ¬ kv.1 = k2 := fun hh => h2 (hk.symm.trans hh).symm
        simp [dictGet?, ha, hb, h2]
    · rw [if_neg hk]
      by_cases h2 : kv.1 = k2
      · have ha : ¬ k2 = k := fun hh => hk (h2.trans hh)
        simp [dictGet?, h2, ha]
      · simp [dictGet?, h2, ih]

lemma dictGet?_foldl {K V : Type} [DecidableEq K] (k : K) :
    ∀ (l acc : List (K × V)),
      dictGet? (List.foldl (fun a kv => dictInsert kv.1 kv.2 a) acc l) k =
        (lastVal? k l).or (dictGet? acc k) := by
  intro l
  induction l with
  | nil => intro acc; rfl
  | cons kv rest ih =>
    intro acc
    rw [List.foldl_cons, ih]
    rcases h : lastVal? k rest with _ | v
    · simp only [lastVal?, h, Option.none_or]
      rw [dictGet?_dictInsert]
      by_cases hk : kv.1 = k
      · rw [if_pos hk.symm, if_pos hk]
        rfl
      · rw [if_neg (fun hh : k = kv.1 => hk hh.symm), if_neg hk]
        rfl
    · simp only [lastVal?, h]
      rfl

lemma nodup_keys_dictInsert {K V : Type} [DecidableEq K] (k : K) (v : V) :
    ∀ {d : List (K × V)}, (d.map Prod.fst).Nodup →
      ((dictInsert k v d).map Prod.fst).Nodup := by
  intro d
  induction d with
  | nil => intro _; simp [dictInsert]
  | cons kv rest ih =>
    intro h
    simp only [List.map_cons, List.nodup_cons] at h
    rw [show kv = (kv.1, kv.2) from rfl, dictInsert]
    by_cases hk : kv.1 = k
    · rw [if_pos hk]
      simp only [List.map_cons, List.nodup_cons]
      exact ⟨by rw [← hk]; exact h.1, h.2⟩
    · rw [if_neg hk]
      simp only [List.map_cons, List.nodup_cons]
      refine ⟨?_, ih h.2⟩
      intro hmem
      rcases (mem_keys_dictInsert k kv.1 v rest).mp hmem with heq | hmem2
      · exact hk heq
      · exact h.1 hmem2

lemma keys_foldl_nodup {K V : Type} [DecidableEq K] :
    ∀ {l acc : List (K × V)}, (acc.map Prod.fst).Nodup →
      ((List.foldl (fun a kv => dictInsert kv.1 kv.2 a) acc l).map
        Prod.fst).Nodup := by
  intro l
  induction l with
  | nil => intro acc h; exact h
  | cons kv rest ih =>
    intro acc h
    rw [List.foldl_cons]
    exact ih (nodup_keys_dictInsert kv.1 kv.2 h)

lemma keys_dictInsert_toFinset {K V : Type} [DecidableEq K] (k : K) (v : V)
    (d : List (K × V)) :
    ((dictInsert k v d).map Prod.fst).toFinset =
      insert k (d.map Prod.fst).toFinset := by
  ext a
  simp only [List.mem_toFinset, Finset.mem_insert, mem_keys_dictInsert]

lemma keys_foldl_toFinset {K V : Type} [DecidableEq K] :
    ∀ (l acc : List (K × V)),
      ((List.foldl (fun a kv => dictInsert kv.1 kv.2 a) acc l).map
        Prod.fst).toFinset =
      (acc.map Prod.fst).toFinset ∪ (l.map Prod.fst).toFinset := by
  intro l
  induction l with
  | nil => intro acc; simp
  | cons kv rest ih =>
    intro acc
    rw [List.foldl_cons, ih, keys_dictInsert_toFinset]
    simp only [List.map_cons, List.toFinset_cons]
    rw [Finset.insert_union, Finset.union_insert]

lemma length_foldl_dictInsert_nil {K V : Type} [DecidableEq K]
    (l : List (K × V)) :
    (List.foldl (fun a kv => dictInsert kv.1 kv.2 a) [] l).length =
      (l.map Prod.fst).dedup.length := by
  have hnd : ((List.foldl (fun a kv => dictInsert kv.1 kv.2 a)
      ([] : List (K × V)) l).map Prod.fst).Nodup :=
    keys_foldl_nodup (by simp)
  have hfin := keys_foldl_toFinset l ([] : List (K × V))
  simp only [List.map_nil, List.toFinset_nil, Finset.empty_union] at hfin
  have h1 : (List.foldl (fun a kv => dictInsert kv.1 kv.2 a) [] l).length =
      ((List.foldl (fun a kv => dictInsert kv.1 kv.2 a)
        ([] : List (K × V)) l).map Prod.fst).length :=
    (List.length_map _ _).symm
  rw [h1, ← List.toFinset_card_of_nodup hnd, hfin, List.card_toFinset]

lemma dedup_length_lt_of_not_nodup {α : Type} [DecidableEq α]
    {l : List α} (h : ¬ l.Nodup) : l.dedup.length < l.length := by
  have hsub := List.dedup_sublist l
  rcases lt_or_eq_of_le hsub.length_le with hlt | heq
  · exact hlt
  · exact absurd (by rw [← hsub.eq_of_length heq]; exact List.nodup_dedup l) h

lemma keyed_mem_unique {K : Type} {V : Type} [DecidableEq K] :
    ∀ {dd : List (K × V)}, (dd.map Prod.fst).Nodup →
      ∀ {p q : K × V}, p ∈ dd → q ∈ dd → p.1 = q.1 → p = q := by
  intro dd
  induction dd with
  | nil => intro _ p q hp; exact absurd hp (List.not_mem_nil p)
  | cons a rest ih =>
    intro hnd p q hp hq hpq
    simp only [List.map_cons, List.nodup_cons] at hnd
    rcases List.mem_cons.mp hp with rfl | hp2
    · rcases List.mem_cons.mp hq with rfl | hq2
      · rfl
      · have hmem : q.1 ∈ rest.map Prod.fst := List.mem_map.mpr ⟨q, hq2, rfl⟩
        rw [← hpq] at hmem
        exact absurd hmem hnd.1
    · rcases List.mem_cons.mp hq with rfl | hq2
      · have hmem : p.1 ∈ rest.map Prod.fst := List.mem_map.mpr ⟨p, hp2, rfl⟩
        rw [hpq] at hmem
        exact absurd hmem hnd.1
      · exact ih hnd.2 hp2 hq2 hpq

lemma mem_pairList {Data ε : Type} {models : List (Placebo.AZCausalWrapper Data ε)} :
    ∀ {dd : List (String × Placebo.Dataset Data)}
      {kv : (String × String) × List Placebo.Result},
      kv ∈ Placebo.pairList models dd →
      ∃ p ∈ dd, ∃ m ∈ models,
        kv = ((m._model_name, p.1), Placebo.okD (Placebo.runUnits m p.2) []) := by
  intro dd
  induction dd with
  | nil => intro kv h; exact absurd h (List.not_mem_nil kv)
  | cons p0 rest ih =>
    intro kv h
    rw [Placebo.pairList] at h
    rcases List.mem_append.mp h with h1 | h2
    · obtain ⟨m, hm, rfl⟩ := List.mem_map.mp h1
      exact ⟨p0, List.mem_cons_self p0 rest, m, hm, rfl⟩
    · obtain ⟨p, hp, m, hm, heq⟩ := ih h2
      exact ⟨p, List.mem_cons_of_mem p0 hp, m, hm, heq⟩

lemma pairList_length {Data ε : Type}
    (models : List (Placebo.AZCausalWrapper Data ε)) :
    ∀ dd : List (String × Placebo.Dataset Data),
      (Placebo.pairList models dd).length = dd.length * models.length := by
  intro dd
  induction dd with
  | nil => simp [Placebo.pairList]
  | cons p rest ih =>
    rw [Placebo.pairList, List.length_append, List.length_map, ih,
      List.length_cons, Nat.succ_mul, Nat.add_comm]

lemma pairList_keys_nodup {Data ε : Type}
    {models : List (Placebo.AZCausalWrapper Data ε)}
    (hm : (models.map (fun m => m._model_name)).Nodup) :
    ∀ {dd : List (String × Placebo.Dataset Data)},
      (dd.map Prod.fst).Nodup →
      ((Placebo.pairList models dd).map Prod.fst).Nodup := by
  intro dd
  induction dd with
  | nil => intro _; simp [Placebo.pairList]
  | cons p0 rest ih =>
    intro hd
    simp only [List.map_cons, List.nodup_cons] at hd
    rw [Placebo.pairList, List.map_append, List.map_map]
    rw [List.nodup_append]
    refine ⟨?_, ih hd.2, ?_⟩
    · have heq : models.map
          (Prod.fst ∘ fun m : Placebo.AZCausalWrapper Data ε =>
            ((m._model_name, p0.1), Placebo.okD (Placebo.runUnits m p0.2) [])) =
          (models.map (fun m => m._model_name)).map (fun s => (s, p0.1)) := by
        rw [List.map_map]
        rfl
      rw [heq]
      exact hm.map (fun a b hab => (Prod.mk.injEq _ _ _ _).mp hab |>.1)
    · intro kk hk1 hk2
      obtain ⟨m, hmm, hkk⟩ := List.mem_map.mp hk1
      obtain ⟨kv, hkv, hkk2⟩ := List.mem_map.mp hk2
      obtain ⟨p, hp, m2, hm2, heq2⟩ := mem_pairList hkv
      have h1 : kk.2 = p0.1 := by
        rw [← hkk]
        rfl
      have h2 : kk.2 = p.1 := by
        rw [← hkk2, heq2]
      exact hd.1 (List.mem_map.mpr ⟨p, hp, (h1.symm.trans h2).symm⟩)

lemma pairList_countP_zero {Data ε : Type}
    (models : List (Placebo.AZCausalWrapper Data ε)) (nm : String)
    {rest : List (String × Placebo.Dataset Data)}
    (h : nm ∉ rest.map Prod.fst) :
    (Placebo.pairList models rest).countP (fun kv => kv.1.2 == nm) = 0 := by
  rw [List.countP_eq_zero]
  intro kv hkv
  obtain ⟨p, hp, m, hm, rfl⟩ := mem_pairList hkv
  simp only [beq_iff_eq]
  intro heq
  exact h (List.mem_map.mpr ⟨p, hp, heq⟩)

lemma pairList_countP_models {Data ε : Type}
    (models : List (Placebo.AZCausalWrapper Data ε)) :
    ∀ {dd : List (String × Placebo.Dataset Data)},
      (dd.map Prod.fst).Nodup →
      ∀ {nm : String} {d : Placebo.Dataset Data}, (nm, d) ∈ dd →
      (Placebo.pairList models dd).countP (fun kv => kv.1.2 == nm) =
        models.length := by
  intro dd
  induction dd with
  | nil => intro _ nm d h; exact absurd h (List.not_mem_nil _)
  | cons p0 rest ih =>
    intro hnd nm d hmem
    simp only [List.map_cons, List.nodup_cons] at hnd
    rw [Placebo.pairList, List.countP_append]
    rcases List.mem_cons.mp hmem with heq | hmem2
    · have hp0 : p0.1 = nm := by rw [← heq]
      have hb : (models.map (fun m =>
          ((m._model_name, p0.1), Placebo.okD (Placebo.runUnits m p0.2) []))).countP
            (fun kv => kv.1.2 == nm) =
          (models.map (fun m =>
            ((m._model_name, p0.1), Placebo.okD (Placebo.runUnits m p0.2) []))).length := by
        rw [List.countP_eq_length]
        intro a ha
        obtain ⟨m, _, rfl⟩ := List.mem_map.mp ha
        simp [hp0]
      have hz : (Placebo.pairList models rest).countP
          (fun kv => kv.1.2 == nm) = 0 :=
        pairList_countP_zero models nm (by rw [← hp0]; exact hnd.1)
      rw [hb, hz, List.length_map, Nat.add_zero]
    · have hnm : nm ∈ rest.map Prod.fst :=
        List.mem_map.mpr ⟨(nm, d), hmem2, rfl⟩
      have hp0 : p0.1 ≠ nm := fun hh => hnd.1 (hh ▸ hnm)
      have hb : (models.map (fun m =>
          ((m._model_name, p0.1), Placebo.okD (Placebo.runUnits m p0.2) []))).countP
            (fun kv => kv.1.2 == nm) = 0 := by
        rw [List.countP_eq_zero]
        intro a ha
        obtain ⟨m, _, rfl⟩ := List.mem_map.mp ha
        simp [hp0]
      rw [hb, ih hnd.2 hmem2, Nat.zero_add]

lemma mem_keys_pairList {Data ε : Type}
    {models : List (Placebo.AZCausalWrapper Data ε)}
    {m : Placebo.AZCausalWrapper Data ε} (hm : m ∈ models) :
    ∀ {dd : List (String × Placebo.Dataset Data)}
      {q : String × Placebo.Dataset Data}, q ∈ dd →
      (m._model_name, q.1) ∈ (Placebo.pairList models dd).map Prod.fst := by
  intro dd
  induction dd with
  | nil => intro q h; exact absurd h (List.not_mem_nil q)
  | cons p0 rest ih =>
    intro q hq
    rw [Placebo.pairList, List.map_append]
    rcases List.mem_cons.mp hq with rfl | hq2
    · exact List.mem_append_left _ (by
        rw [List.map_map]
        exact List.mem_map.mpr ⟨m, hm, rfl⟩)
    · exact List.mem_append_right _ (ih hq2)

lemma model_names_nodup_of_pairList_keys {Data ε : Type}
    {models : List (Placebo.AZCausalWrapper Data ε)}
    {dd : List (String × Placebo.Dataset Data)} (hd0 : dd ≠ [])
    (h : ((Placebo.pairList models dd).map Prod.fst).Nodup) :
    (models.map (fun m => m._model_name)).Nodup := by
  cases dd with
  | nil => exact absurd rfl hd0
  | cons p0 rest =>
    rw [Placebo.pairList, List.map_append, List.map_map] at h
    have hblock := h.of_append_left
    have heq : models.map
        (Prod.fst ∘ fun m : Placebo.AZCausalWrapper Data ε =>
          ((m._model_name, p0.1), Placebo.okD (Placebo.runUnits m p0.2) [])) =
        (models.map (fun m => m._model_name)).map (fun s => (s, p0.1)) := by
      rw [List.map_map]
      rfl
    rw [heq] at hblock
    exact hblock.of_map

lemma dataset_names_nodup_of_pairList_keys {Data ε : Type}
    {models : List (Placebo.AZCausalWrapper Data ε)} (hm0 : models ≠ []) :
    ∀ {dd : List (String × Placebo.Dataset Data)},
      ((Placebo.pairList models dd).map Prod.fst).Nodup →
      (dd.map Prod.fst).Nodup := by
  intro dd
  induction dd with
  | nil => intro _; simp
  | cons p0 rest ih =>
    intro h
    rw [Placebo.pairList, List.map_append] at h
    rw [List.nodup_append] at h
    simp only [List.map_cons, List.nodup_cons]
    refine ⟨?_, ih h.2.1⟩
    intro hmem
    obtain ⟨q, hq, hq1⟩ := List.mem_map.mp hmem
    obtain ⟨m0, hm0mem⟩ := List.exists_mem_of_ne_nil models hm0
    have hleft : (m0._model_name, p0.1) ∈
        (models.map (fun m =>
          ((m._model_name, p0.1), Placebo.okD (Placebo.runUnits m p0.2) []))).map
            Prod.fst := by
      rw [List.map_map]
      exact List.mem_map.mpr ⟨m0, hm0mem, rfl⟩
    have hright : (m0._model_name, p0.1) ∈
        (Placebo.pairList models rest).map Prod.fst := by
      rw [← hq1]
      exact mem_keys_pairList hm0mem hq
    exact h.2.2 hleft hright

/-- Claim C1 (amended with pairwise-distinct identifiers): for every
PlaceboTest built from models with pairwise-distinct `_model_name` and a
dataset dictionary with pairwise-distinct names, when every model
invocation succeeds, `execute()` returns a result holding, for each
dataset with `n` control units, exactly `m = len(models)` effect lists,
each of length exactly `n` — one Result per control-unit index. -/
theorem execute_leave_one_out_completeness {Data ε : Type}
    (models : List (Placebo.AZCausalWrapper Data ε))
    (dd : List (String × Placebo.Dataset Data))
    (hm : (models.map (fun m => m._model_name)).Nodup)
    (hd : (dd.map Prod.fst).Nodup)
    (hcall : ∀ p ∈ dd, ∀ m ∈ models, ∀ i < p.2.n_units,
      ∃ r, m.call (p.2.to_placebo_data i) = .ok r) :
    ∃ res : Placebo.PlaceboTestResult,
      Placebo.execute models dd = .ok res ∧
      ∀ p ∈ dd,
        res.effects.countP (fun kv => kv.1.2 == p.1) = models.length ∧
        ∀ kv ∈ res.effects, kv.1.2 = p.1 → kv.2.length = p.2.n_units := by
  have hrun : ∀ p ∈ dd, ∀ m ∈ models, ∃ l, Placebo.runUnits m p.2 = .ok l :=
    fun p hp m hm2 => by
      obtain ⟨l, hl, _⟩ := runUnits_ok_of (hcall p hp m hm2)
      exact ⟨l, hl⟩
  have hloop := datasetLoop_ok_of hrun []
  have hfold : List.foldl (fun a kv => Placebo.dictInsert kv.1 kv.2 a) []
      (Placebo.pairList models dd) = Placebo.pairList models dd := by
    have hfresh : ∀ k ∈ (Placebo.pairList models dd).map Prod.fst,
        k ∉ (([] : List ((String × String) × List Placebo.Result)).map
          Prod.fst) := by
      intro k _ hk
      simp at hk
    have := foldl_dictInsert_fresh (pairList_keys_nodup hm hd) hfresh
    simpa using this
  refine ⟨Placebo.PlaceboTestResult.mk (Placebo.pairList models dd), ?_, ?_⟩
  · rw [Placebo.execute, hloop, hfold]
    rfl
  · intro p hp
    refine ⟨pairList_countP_models models hd hp, ?_⟩
    intro kv hkv hsnd
    obtain ⟨q, hq, m, hm2, rfl⟩ := mem_pairList hkv
    have hqp : q = p := keyed_mem_unique hd hq hp hsnd
    subst hqp
    obtain ⟨l, hl, hlen⟩ := runUnits_ok_of (hcall q hq m hm2)
    simp [Placebo.okD, hl, hlen]

/-- Witness for C1: one model, one dataset with one control unit. -/
theorem execute_leave_one_out_completeness_witness :
    (([Placebo.okModel "M1" 1].map (fun m => m._model_name)).Nodup) ∧
    (([("D", Placebo.natDataset 1)].map Prod.fst).Nodup) ∧
    (∀ p ∈ [("D", Placebo.natDataset 1)], ∀ m ∈ [Placebo.okModel "M1" 1],
      ∀ i < p.2.n_units, ∃ r, m.call (p.2.to_placebo_data i) = .ok r) ∧
    (∃ res : Placebo.PlaceboTestResult,
      Placebo.execute [Placebo.okModel "M1" 1]
        [("D", Placebo.natDataset 1)] = .ok res ∧
      ∀ p ∈ [("D", Placebo.natDataset 1)],
        res.effects.countP (fun kv => kv.1.2 == p.1) =
          [Placebo.okModel "M1" 1].length ∧
        ∀ kv ∈ res.effects, kv.1.2 = p.1 →
          kv.2.length = p.2.n_units) := by
  have hcall : ∀ p ∈ [("D", Placebo.natDataset 1)],
      ∀ m ∈ [Placebo.okModel "M1" 1],
      ∀ i < p.2.n_units, ∃ r, m.call (p.2.to_placebo_data i) = .ok r := by
    intro p hp m hm i hi
    rw [List.mem_singleton] at hm
    subst hm
    exact ⟨_, rfl⟩
  exact ⟨by simp, by simp, hcall,
    execute_leave_one_out_completeness _ _ (by simp) (by simp) hcall⟩

/-- Counterexample to C1 as stated: a PlaceboTest built from `m = 2`
models that share the `_model_name` "M", on one dataset with one control
unit, produces 1 effect list for that dataset, not 2: the second
evaluation overwrites the first under the shared dictionary key. -/
theorem execute_completeness_counterexample :
    ∃ res : Placebo.PlaceboTestResult,
      Placebo.execute [Placebo.okModel "M" 1, Placebo.okModel "M" 2]
        [("D", Placebo.natDataset 1)] = .ok res ∧
      res.effects.countP (fun kv => kv.1.2 == "D") ≠
        [Placebo.okModel "M" 1, Placebo.okModel "M" 2].length := by
  refine ⟨Placebo.PlaceboTestResult.mk
    [(("M", "D"),
      [Placebo.Result.mk (Placebo.Effect.mk (Placebo.PercentageEffect.mk 2))])],
    rfl, ?_⟩
  simp

/-- Claim C4: if a model invocation inside `execute()` raises, the error
propagates unchanged to the caller of `execute()` (the returned error is
one raised by a model call and nothing else), and whenever any invocation
raises, no `PlaceboTestResult` is returned — the failure is not caught,
retried or skipped. -/
theorem execute_error_propagation {Data ε : Type}
    (models : List (Placebo.AZCausalWrapper Data ε))
    (dd : List (String × Placebo.Dataset Data)) :
    (∀ e, Placebo.execute models dd = .error e →
      ∃ p ∈ dd, ∃ m ∈ models, ∃ i < p.2.n_units,
        m.call (p.2.to_placebo_data i) = .error e) ∧
    (∀ p ∈ dd, ∀ m ∈ models, ∀ i < p.2.n_units, ∀ e,
      m.call (p.2.to_placebo_data i) = .error e →
        ∃ e2, Placebo.execute models dd = .error e2) := by
  constructor
  · intro e he
    rw [Placebo.execute] at he
    rcases hdl : Placebo.datasetLoop models dd [] with e0 | out
    · rw [hdl] at he
      have he0 : e0 = e := by
        simpa [Except.map] using he
      obtain ⟨p, hp, m, hm, hrun⟩ := datasetLoop_error_mem (by rw [hdl, he0])
      obtain ⟨i, hi, hcall⟩ := runUnits_error_mem hrun
      exact ⟨p, hp, m, hm, i, hi, hcall⟩
    · rw [hdl] at he
      exact absurd he (by simp [Except.map])
  · intro p hp m hm i hi e hcall
    rcases hex : Placebo.execute models dd with e2 | res
    · exact ⟨e2, rfl⟩
    · rw [Placebo.execute] at hex
      rcases hdl : Placebo.datasetLoop models dd [] with e0 | out
      · rw [hdl] at hex
        exact absurd hex (by simp [Except.map])
      · obtain ⟨l, hl⟩ := datasetLoop_ok_forall hdl p hp m hm
        rw [Placebo.runUnits] at hl
        obtain ⟨r, hr⟩ := mapExcept_ok_forall hl i (List.mem_range.mpr hi)
        rw [hcall] at hr
        exact absurd hr (by simp)

/-- Witness for C4: a single model that always raises, on a one-unit
dataset: `execute` returns an error. -/
theorem execute_error_propagation_witness :
    (("D", Placebo.natDataset 1) ∈ [("D", Placebo.natDataset 1)]) ∧
    (Placebo.failModel "M" "boom" ∈ [Placebo.failModel "M" "boom"]) ∧
    (0 < (Placebo.natDataset 1).n_units) ∧
    ((Placebo.failModel "M" "boom").call
      ((Placebo.natDataset 1).to_placebo_data 0) = .error "boom") ∧
    (∃ e2, Placebo.execute [Placebo.failModel "M" "boom"]
      [("D", Placebo.natDataset 1)] = .error e2) :=
  ⟨List.mem_singleton.mpr rfl, List.mem_singleton.mpr rfl,
   Nat.zero_lt_one, rfl,
   (execute_error_propagation _ _).2 _ (List.mem_singleton.mpr rfl) _
     (List.mem_singleton.mpr rfl) 0 Nat.zero_lt_one "boom" rfl⟩

/-- Claim C10: `execute()` keys its dictionary by
`(model._model_name, dataset name)`; with duplicate model names (or
duplicate dataset names) the later evaluation silently replaces the
earlier one — every lookup returns the value of the last insertion for
that key — and the result holds strictly fewer entries than
`models × datasets`. -/
theorem execute_duplicate_names_overwrite {Data ε : Type}
    (models : List (Placebo.AZCausalWrapper Data ε))
    (dd : List (String × Placebo.Dataset Data))
    (hcall : ∀ p ∈ dd, ∀ m ∈ models, ∀ i < p.2.n_units,
      ∃ r, m.call (p.2.to_placebo_data i) = .ok r)
    (hm0 : models ≠ []) (hd0 : dd ≠ [])
    (hdup : ¬ (models.map (fun m => m._model_name)).Nodup ∨
            ¬ (dd.map Prod.fst).Nodup) :
    ∃ res : Placebo.PlaceboTestResult,
      Placebo.execute models dd = .ok res ∧
      res.effects.length < models.length * dd.length ∧
      ∀ k, Placebo.dictGet? res.effects k =
        Placebo.lastVal? k (Placebo.pairList models dd) := by
  have hrun : ∀ p ∈ dd, ∀ m ∈ models, ∃ l, Placebo.runUnits m p.2 = .ok l :=
    fun p hp m hm2 => by
      obtain ⟨l, hl, _⟩ := runUnits_ok_of (hcall p hp m hm2)
      exact ⟨l, hl⟩
  have hloop := datasetLoop_ok_of hrun []
  refine ⟨Placebo.PlaceboTestResult.mk
    (List.foldl (fun a kv => Placebo.dictInsert kv.1 kv.2 a) []
      (Placebo.pairList models dd)), ?_, ?_, ?_⟩
  · rw [Placebo.execute, hloop]
    rfl
  · have hnotnodup : ¬ ((Placebo.pairList models dd).map Prod.fst).Nodup := by
      intro hnd
      rcases hdup with hdupm | hdupd
      · exact hdupm (model_names_nodup_of_pairList_keys hd0 hnd)
      · exact hdupd (dataset_names_nodup_of_pairList_keys hm0 hnd)
    calc (List.foldl (fun a kv => Placebo.dictInsert kv.1 kv.2 a) []
          (Placebo.pairList models dd)).length
        = ((Placebo.pairList models dd).map Prod.fst).dedup.length :=
          length_foldl_dictInsert_nil _
      _ < ((Placebo.pairList models dd).map Prod.fst).length :=
          dedup_length_lt_of_not_nodup hnotnodup
      _ = (Placebo.pairList models dd).length := List.length_map _ _
      _ = dd.length * models.length := pairList_length models dd
      _ = models.length * dd.length := Nat.mul_comm _ _
  · intro k
    rw [show (Placebo.PlaceboTestResult.mk
      (List.foldl (fun a kv => Placebo.dictInsert kv.1 kv.2 a) []
        (Placebo.pairList models dd))).effects =
      List.foldl (fun a kv => Placebo.dictInsert kv.1 kv.2 a) []
        (Placebo.pairList models dd) from rfl, dictGet?_foldl]
    rcases Placebo.lastVal? k (Placebo.pairList models dd) with _ | v
    · rfl
    · rfl

/-- Witness for C10: two models sharing the name "M" on one one-unit
dataset: the dictionary holds 1 entry instead of 2. -/
theorem execute_duplicate_names_overwrite_witness :
    (∀ p ∈ [("D", Placebo.natDataset 1)],
      ∀ m ∈ [Placebo.okModel "M" 1, Placebo.okModel "M" 2],
      ∀ i < p.2.n_units, ∃ r, m.call (p.2.to_placebo_data i) = .ok r) ∧
    ([Placebo.okModel "M" 1, Placebo.okModel "M" 2] ≠ []) ∧
    ([("D", Placebo.natDataset 1)] ≠ []) ∧
    (¬ (([Placebo.okModel "M" 1, Placebo.okModel "M" 2].map
        (fun m => m._model_name)).Nodup)) ∧
    (∃ res : Placebo.PlaceboTestResult,
      Placebo.execute [Placebo.okModel "M" 1, Placebo.okModel "M" 2]
        [("D", Placebo.natDataset 1)] = .ok res ∧
      res.effects.length <
        [Placebo.okModel "M" 1, Placebo.okModel "M" 2].length *
        [("D", Placebo.natDataset 1)].length ∧
      ∀ k, Placebo.dictGet? res.effects k =
        Placebo.lastVal? k (Placebo.pairList
          [Placebo.okModel "M" 1, Placebo.okModel "M" 2]
          [("D", Placebo.natDataset 1)])) := by
  have hcall : ∀ p ∈ [("D", Placebo.natDataset 1)],
      ∀ m ∈ [Placebo.okModel "M" 1, Placebo.okModel "M" 2],
      ∀ i < p.2.n_units, ∃ r, m.call (p.2.to_placebo_data i) = .ok r := by
    intro p hp m hm i hi
    rcases List.mem_cons.mp hm with rfl | hm2
    · exact ⟨_, rfl⟩
    · rw [List.mem_singleton] at hm2
      subst hm2
      exact ⟨_, rfl⟩
  exact ⟨hcall, List.cons_ne_nil _ _, List.cons_ne_nil _ _,
    by simp [Placebo.okModel],
    execute_duplicate_names_overwrite _ _ hcall (List.cons_ne_nil _ _)
      (List.cons_ne_nil _ _) (Or.inl (by simp [Placebo.okModel]))⟩

end ExecuteTheorems

section TransformTheorems

open Transforms

/-- Claim C6: a unit-varying Parameter with an explicit seed resolves
identically for the same unit count regardless of the ambient random
state (and hence of when or how often resolve is called); and there are
distinct seeds and a non-degenerate distribution whose resolved vectors
differ. -/
theorem parameter_seed_determinism :
    (∀ (d : Distribution) (s n : ℕ), 0 < n → ∀ amb1 amb2 : ℕ,
      (Parameter.UnitVarying d (some s)).resolve n amb1 =
      (Parameter.UnitVarying d (some s)).resolve n amb2) ∧
    (∃ (d : Distribution) (s1 s2 : ℕ), s1 ≠ s2 ∧ ∃ n amb : ℕ, 0 < n ∧
      (Parameter.UnitVarying d (some s1)).resolve n amb ≠
      (Parameter.UnitVarying d (some s2)).resolve n amb) := by
  constructor
  · intro d s n _ amb1 amb2
    rfl
  · refine ⟨Distribution.mk (fun s _ => (s : ℝ)), 0, 1, one_ne_zero.symm,
      1, 0, Nat.zero_lt_one, ?_⟩
    intro h
    simp only [Parameter.resolve, if_neg (by norm_num : (1 : ℕ) ≠ 0)] at h
    injection h with h
    have h2 := congrArg (fun l : List ℝ => l.getD 0 37) h
    simp [List.range_succ] at h2

/-- Witness for C6: the seeded resolution at unit count 1 is identical
under two different ambient states. -/
theorem parameter_seed_determinism_witness :
    (0 < 1) ∧
    ((Parameter.UnitVarying (Distribution.mk (fun s i => (s + i : ℝ)))
        (some 3)).resolve 1 5 =
      (Parameter.UnitVarying (Distribution.mk (fun s i => (s + i : ℝ)))
        (some 3)).resolve 1 9) :=
  ⟨Nat.zero_lt_one,
   parameter_seed_determinism.1
     (Distribution.mk (fun s i => (s + i : ℝ))) 3 1 Nat.zero_lt_one 5 9⟩

lemma deformRow_length (delta : ℕ → ℝ) :
    ∀ (u : ℕ) (row : List ℝ), (deformRow delta u row).length = row.length := by
  intro u row
  induction row generalizing u with
  | nil => rfl
  | cons v vs ih => simp [deformRow, ih]

lemma shapeOf_deformMat (delta : ℕ → ℕ → ℝ) :
    ∀ (t : ℕ) (mat : List (List ℝ)),
      shapeOf (deformMat delta t mat) = shapeOf mat := by
  intro t mat
  induction mat generalizing t with
  | nil => rfl
  | cons row rest ih =>
    have h := ih (t + 1)
    simp only [shapeOf] at h ⊢
    simp only [deformMat, List.map_cons, deformRow_length, h]

lemma shapeOf_append (a b : List (List ℝ)) :
    shapeOf (a ++ b) = shapeOf a ++ shapeOf b :=
  List.map_append _ _ _

lemma resolve_ok_of_pos (p : Parameter) {n : ℕ} (hn : n ≠ 0) (amb : ℕ) :
    ∃ v, p.resolve n amb = .ok v ∧ v.length = n := by
  rcases p with v | ⟨d, s | s⟩
  · exact ⟨_, by rw [Parameter.resolve.eq_def, if_neg hn], by simp⟩
  · exact ⟨_, by rw [Parameter.resolve.eq_def, if_neg hn], by simp⟩
  · exact ⟨_, by rw [Parameter.resolve.eq_def, if_neg hn], by simp⟩

/-- Claim C7: for Periodic and Trend transforms with resolvable Parameters
and a Dataset satisfying the §3 invariants, applying the transform
succeeds and every matrix slot of the output (pre/post, control/treated,
and the full-span views) has exactly the shape of the corresponding input
slot.  Values live in `ℝ`, where every deformation term is a total real
number, so no NaN/Inf can be introduced from finite inputs. -/
theorem transform_shape_invariance (P : Periodic) (Tr : Trend)
    (D : Dataset) (amb : ℕ) (hD : D.WellFormed) :
    (∃ D2, P.apply D amb = .ok D2 ∧
      shapeOf D2.Xtr = shapeOf D.Xtr ∧ shapeOf D2.ytr = shapeOf D.ytr ∧
      shapeOf D2.Xte = shapeOf D.Xte ∧ shapeOf D2.yte = shapeOf D.yte ∧
      shapeOf D2.control_units = shapeOf D.control_units ∧
      shapeOf D2.treated_units = shapeOf D.treated_units) ∧
    (∃ D3, Tr.apply D amb = .ok D3 ∧
      shapeOf D3.Xtr = shapeOf D.Xtr ∧ shapeOf D3.ytr = shapeOf D.ytr ∧
      shapeOf D3.Xte = shapeOf D.Xte ∧ shapeOf D3.yte = shapeOf D.yte ∧
      shapeOf D3.control_units = shapeOf D.control_units ∧
      shapeOf D3.treated_units = shapeOf D.treated_units) := by
  obtain ⟨-, -, -, -, -, -, -, -, -, -, h11, h12⟩ := hD
  have hc : D.n_control ≠ 0 := by omega
  have ht : D.n_treated ≠ 0 := by omega
  constructor
  · obtain ⟨aC, haC, -⟩ := resolve_ok_of_pos P.amplitude hc amb
    obtain ⟨fC, hfC, -⟩ := resolve_ok_of_pos P.frequency hc amb
    obtain ⟨sC, hsC, -⟩ := resolve_ok_of_pos P.shift hc amb
    obtain ⟨oC, hoC, -⟩ := resolve_ok_of_pos P.offset hc amb
    obtain ⟨aT, haT, -⟩ := resolve_ok_of_pos P.amplitude ht amb
    obtain ⟨fT, hfT, -⟩ := resolve_ok_of_pos P.frequency ht amb
    obtain ⟨sT, hsT, -⟩ := resolve_ok_of_pos P.shift ht amb
    obtain ⟨oT, hoT, -⟩ := resolve_ok_of_pos P.offset ht amb
    refine ⟨Dataset.mk D.n_pre D.n_post D.n_control D.n_treated
        (deformMat (periodicDelta aC fC sC oC (D.n_pre + D.n_post)) 0 D.Xtr)
        (deformMat (periodicDelta aT fT sT oT (D.n_pre + D.n_post)) 0 D.ytr)
        (deformMat (periodicDelta aC fC sC oC (D.n_pre + D.n_post)) D.n_pre D.Xte)
        (deformMat (periodicDelta aT fT sT oT (D.n_pre + D.n_post)) D.n_pre D.yte),
      ?_, shapeOf_deformMat _ _ _, shapeOf_deformMat _ _ _,
      shapeOf_deformMat _ _ _, shapeOf_deformMat _ _ _, ?_, ?_⟩
    · simp only [Periodic.apply, haC, hfC, hsC, hoC, haT, hfT, hsT, hoT]
      rfl
    · simp only [Dataset.control_units, shapeOf_append, shapeOf_deformMat]
    · simp only [Dataset.treated_units, shapeOf_append, shapeOf_deformMat]
  · obtain ⟨cC, hcC, -⟩ := resolve_ok_of_pos Tr.coefficient hc amb
    obtain ⟨iC, hiC, -⟩ := resolve_ok_of_pos Tr.intercept hc amb
    obtain ⟨cT, hcT, -⟩ := resolve_ok_of_pos Tr.coefficient ht amb
    obtain ⟨iT, hiT, -⟩ := resolve_ok_of_pos Tr.intercept ht amb
    refine ⟨Dataset.mk D.n_pre D.n_post D.n_control D.n_treated
        (deformMat (trendDelta cC iC Tr.degree) 0 D.Xtr)
        (deformMat (trendDelta cT iT Tr.degree) 0 D.ytr)
        (deformMat (trendDelta cC iC Tr.degree) D.n_pre D.Xte)
        (deformMat (trendDelta cT iT Tr.degree) D.n_pre D.yte),
      ?_, shapeOf_deformMat _ _ _, shapeOf_deformMat _ _ _,
      shapeOf_deformMat _ _ _, shapeOf_deformMat _ _ _, ?_, ?_⟩
    · simp only [Trend.apply, hcC, hiC, hcT, hiT]
      rfl
    · simp only [Dataset.control_units, shapeOf_append, shapeOf_deformMat]
    · simp only [Dataset.treated_units, shapeOf_append, shapeOf_deformMat]

/-- Witness for C7 at `Periodic(amplitude=1, frequency=1, shift=0,
offset=0)` and `Trend(degree=1, coefficient=1, intercept=0)` on a constant
single-unit panel. -/
theorem transform_shape_invariance_witness :
    (constDataset 0 1 1).WellFormed ∧
    ((∃ D2, (Periodic.mk (Parameter.Fixed 1) (Parameter.Fixed 1)
        (Parameter.Fixed 0) (Parameter.Fixed 0)).apply
          (constDataset 0 1 1) 0 = .ok D2 ∧
      shapeOf D2.Xtr = shapeOf (constDataset 0 1 1).Xtr ∧
      shapeOf D2.ytr = shapeOf (constDataset 0 1 1).ytr ∧
      shapeOf D2.Xte = shapeOf (constDataset 0 1 1).Xte ∧
      shapeOf D2.yte = shapeOf (constDataset 0 1 1).yte ∧
      shapeOf D2.control_units = shapeOf (constDataset 0 1 1).control_units ∧
      shapeOf D2.treated_units = shapeOf (constDataset 0 1 1).treated_units) ∧
    (∃ D3, (Trend.mk 1 (Parameter.Fixed 1) (Parameter.Fixed 0)).apply
        (constDataset 0 1 1) 0 = .ok D3 ∧
      shapeOf D3.Xtr = shapeOf (constDataset 0 1 1).Xtr ∧
      shapeOf D3.ytr = shapeOf (constDataset 0 1 1).ytr ∧
      shapeOf D3.Xte = shapeOf (constDataset 0 1 1).Xte ∧
      shapeOf D3.yte = shapeOf (constDataset 0 1 1).yte ∧
      shapeOf D3.control_units = shapeOf (constDataset 0 1 1).control_units ∧
      shapeOf D3.treated_units = shapeOf (constDataset 0 1 1).treated_units)) := by
  have hWF : (constDataset 0 1 1).WellFormed := by
    simp [Dataset.WellFormed, constDataset, List.mem_replicate]
  exact ⟨hWF, transform_shape_invariance
    (Periodic.mk (Parameter.Fixed 1) (Parameter.Fixed 1)
      (Parameter.Fixed 0) (Parameter.Fixed 0))
    (Trend.mk 1 (Parameter.Fixed 1) (Parameter.Fixed 0))
    (constDataset 0 1 1) 0 hWF⟩

lemma deformRow_getD (delta : ℕ → ℝ) :
    ∀ (row : List ℝ) (u0 u : ℕ), u < row.length →
      (deformRow delta u0 row).getD u 0 = row.getD u 0 + delta (u0 + u) := by
  intro row
  induction row with
  | nil => intro u0 u h; exact absurd h (by simp)
  | cons v vs ih =>
    intro u0 u h
    cases u with
    | zero => simp [deformRow]
    | succ u =>
      simp only [deformRow, List.getD_cons_succ]
      rw [ih (u0 + 1) u (by simpa using h)]
      rw [show u0 + 1 + u = u0 + (u + 1) from by omega]

lemma getD_mem {α : Type} {l : List α} {i : ℕ} (d : α) (h : i < l.length) :
    l.getD i d ∈ l := by
  induction l generalizing i with
  | nil => simp at h
  | cons a rest ih =>
    cases i with
    | zero => exact List.mem_cons_self _ _
    | succ i => exact List.mem_cons_of_mem _ (ih (by simpa using h))

lemma deformMat_entry (delta : ℕ → ℕ → ℝ) :
    ∀ (mat : List (List ℝ)) (t0 t u : ℕ), t < mat.length →
      u < (mat.getD t []).length →
      entry (deformMat delta t0 mat) t u = entry mat t u + delta u (t0 + t) := by
  intro mat
  induction mat with
  | nil => intro t0 t u h _; exact absurd h (by simp)
  | cons row rest ih =>
    intro t0 t u ht hu
    cases t with
    | zero =>
      simp only [deformMat, entry, List.getD_cons_zero]
      rw [deformRow_getD _ row 0 u hu]
      rw [Nat.zero_add, Nat.add_zero]
    | succ t =>
      have hrec := ih (t0 + 1) t u (by simpa using ht) hu
      simp only [deformMat, entry, List.getD_cons_succ] at hrec ⊢
      rw [hrec, show t0 + 1 + t = t0 + (t + 1) from by omega]

lemma getD_replicate_self {x : ℝ} : ∀ (n u : ℕ),
    (List.replicate n x).getD u x = x := by
  intro n
  induction n with
  | zero => intro u; rfl
  | succ n ih =>
    intro u
    cases u with
    | zero => rfl
    | succ u => exact ih u

/-- Claim C8: for Trend with degree at least 1 and intercept 0 on a §3
well-formed Dataset: a unit whose resolved coefficient is strictly
positive has its value at the final time step strictly increased by the
transform, and strictly decreased when the coefficient is strictly
negative — for control units and treated units alike. -/
theorem trend_monotonic_sign (Tr : Trend) (D : Dataset) (amb : ℕ)
    (hD : D.WellFormed) (hdeg : 1 ≤ Tr.degree)
    (hint : Tr.intercept = Parameter.Fixed 0) :
    ∃ D2 coefC coefT,
      Tr.apply D amb = .ok D2 ∧
      Tr.coefficient.resolve D.n_control amb = .ok coefC ∧
      Tr.coefficient.resolve D.n_treated amb = .ok coefT ∧
      (∀ u < D.n_control,
        (0 < coefC.getD u 0 →
          entry D.Xte (D.n_post - 1) u < entry D2.Xte (D.n_post - 1) u) ∧
        (coefC.getD u 0 < 0 →
          entry D2.Xte (D.n_post - 1) u < entry D.Xte (D.n_post - 1) u)) ∧
      (∀ u < D.n_treated,
        (0 < coefT.getD u 0 →
          entry D.yte (D.n_post - 1) u < entry D2.yte (D.n_post - 1) u) ∧
        (coefT.getD u 0 < 0 →
          entry D2.yte (D.n_post - 1) u < entry D.yte (D.n_post - 1) u)) := by
  obtain ⟨h1, h2, h3, h4, h5, h6, h7, h8, h9, h10, h11, h12⟩ := hD
  have hc : D.n_control ≠ 0 := by omega
  have ht : D.n_treated ≠ 0 := by omega
  obtain ⟨cC, hcC, hcCl⟩ := resolve_ok_of_pos Tr.coefficient hc amb
  obtain ⟨cT, hcT, hcTl⟩ := resolve_ok_of_pos Tr.coefficient ht amb
  have hiC : Tr.intercept.resolve D.n_control amb =
      .ok (List.replicate D.n_control 0) := by
    rw [hint, Parameter.resolve.eq_def, if_neg hc]
  have hiT : Tr.intercept.resolve D.n_treated amb =
      .ok (List.replicate D.n_treated 0) := by
    rw [hint, Parameter.resolve.eq_def, if_neg ht]
  have hx : (0 : ℝ) < ((D.n_pre + (D.n_post - 1) : ℕ) : ℝ) := by
    have hge : 1 ≤ D.n_pre + (D.n_post - 1) := by omega
    exact_mod_cast Nat.lt_of_lt_of_le Nat.zero_lt_one hge
  refine ⟨Dataset.mk D.n_pre D.n_post D.n_control D.n_treated
      (deformMat (trendDelta cC (List.replicate D.n_control 0) Tr.degree) 0 D.Xtr)
      (deformMat (trendDelta cT (List.replicate D.n_treated 0) Tr.degree) 0 D.ytr)
      (deformMat (trendDelta cC (List.replicate D.n_control 0) Tr.degree) D.n_pre D.Xte)
      (deformMat (trendDelta cT (List.replicate D.n_treated 0) Tr.degree) D.n_pre D.yte),
    cC, cT, ?_, hcC, hcT, ?_, ?_⟩
  · simp only [Trend.apply, hcC, hiC, hcT, hiT]
    rfl
  · intro u hu
    have htlt : (D.n_post - 1) < D.Xte.length := by
      rw [h3]
      omega
    have hrow : (D.Xte.getD (D.n_post - 1) []).length = D.n_control :=
      h6 _ (getD_mem [] htlt)
    have he := deformMat_entry
      (trendDelta cC (List.replicate D.n_control 0) Tr.degree)
      D.Xte D.n_pre (D.n_post - 1) u htlt (by rw [hrow]; exact hu)
    rw [show D.n_pre + (D.n_post - 1) = D.n_pre + (D.n_post - 1) from rfl] at he
    simp only [trendDelta, getD_replicate_self, zero_add] at he
    constructor
    · intro hpos
      show entry D.Xte (D.n_post - 1) u <
        entry (deformMat (trendDelta cC (List.replicate D.n_control 0)
          Tr.degree) D.n_pre D.Xte) (D.n_post - 1) u
      rw [he]
      have := mul_pos hpos (pow_pos hx Tr.degree)
      linarith
    · intro hneg
      show entry (deformMat (trendDelta cC (List.replicate D.n_control 0)
          Tr.degree) D.n_pre D.Xte) (D.n_post - 1) u <
        entry D.Xte (D.n_post - 1) u
      rw [he]
      have := mul_neg_of_neg_of_pos hneg (pow_pos hx Tr.degree)
      linarith
  · intro u hu
    have htlt : (D.n_post - 1) < D.yte.length := by
      rw [h4]
      omega
    have hrow : (D.yte.getD (D.n_post - 1) []).length = D.n_treated :=
      h8 _ (getD_mem [] htlt)
    have he := deformMat_entry
      (trendDelta cT (List.replicate D.n_treated 0) Tr.degree)
      D.yte D.n_pre (D.n_post - 1) u htlt (by rw [hrow]; exact hu)
    simp only [trendDelta, getD_replicate_self, zero_add] at he
    constructor
    · intro hpos
      show entry D.yte (D.n_post - 1) u <
        entry (deformMat (trendDelta cT (List.replicate D.n_treated 0)
          Tr.degree) D.n_pre D.yte) (D.n_post - 1) u
      rw [he]
      have := mul_pos hpos (pow_pos hx Tr.degree)
      linarith
    · intro hneg
      show entry (deformMat (trendDelta cT (List.replicate D.n_treated 0)
          Tr.degree) D.n_pre D.yte) (D.n_post - 1) u <
        entry D.yte (D.n_post - 1) u
      rw [he]
      have := mul_neg_of_neg_of_pos hneg (pow_pos hx Tr.degree)
      linarith

/-- Witness for C8 at `Trend(degree=1, coefficient=1, intercept=0)` on a
constant single-unit panel with one pre and one post sample. -/
theorem trend_monotonic_sign_witness :
    (constDataset 0 1 1).WellFormed ∧
    1 ≤ (Trend.mk 1 (Parameter.Fixed 1) (Parameter.Fixed 0)).degree ∧
    (Trend.mk 1 (Parameter.Fixed 1) (Parameter.Fixed 0)).intercept =
      Parameter.Fixed 0 ∧
    (∃ D2 coefC coefT,
      (Trend.mk 1 (Parameter.Fixed 1) (Parameter.Fixed 0)).apply
        (constDataset 0 1 1) 0 = .ok D2 ∧
      (Trend.mk 1 (Parameter.Fixed 1)
        (Parameter.Fixed 0)).coefficient.resolve
          (constDataset 0 1 1).n_control 0 = .ok coefC ∧
      (Trend.mk 1 (Parameter.Fixed 1)
        (Parameter.Fixed 0)).coefficient.resolve
          (constDataset 0 1 1).n_treated 0 = .ok coefT ∧
      (∀ u < (constDataset 0 1 1).n_control,
        (0 < coefC.getD u 0 →
          entry (constDataset 0 1 1).Xte ((constDataset 0 1 1).n_post - 1) u <
          entry D2.Xte ((constDataset 0 1 1).n_post - 1) u) ∧
        (coefC.getD u 0 < 0 →
          entry D2.Xte ((constDataset 0 1 1).n_post - 1) u <
          entry (constDataset 0 1 1).Xte
            ((constDataset 0 1 1).n_post - 1) u)) ∧
      (∀ u < (constDataset 0 1 1).n_treated,
        (0 < coefT.getD u 0 →
          entry (constDataset 0 1 1).yte ((constDataset 0 1 1).n_post - 1) u <
          entry D2.yte ((constDataset 0 1 1).n_post - 1) u) ∧
        (coefT.getD u 0 < 0 →
          entry D2.yte ((constDataset 0 1 1).n_post - 1) u <
          entry (constDataset 0 1 1).yte
            ((constDataset 0 1 1).n_post - 1) u))) := by
  have hWF : (constDataset 0 1 1).WellFormed := by
    simp [Dataset.WellFormed, constDataset, List.mem_replicate]
  exact ⟨hWF, le_refl 1, rfl,
    trend_monotonic_sign (Trend.mk 1 (Parameter.Fixed 1) (Parameter.Fixed 0))
      (constDataset 0 1 1) 0 hWF (le_refl 1) rfl⟩

end TransformTheorems

section SpectralTheorems

open Transforms

lemma rootExp_mul (T : ℕ) (m m2 : ℤ) (t : ℕ) :
    rootExp T m t * rootExp T m2 t = rootExp T (m + m2) t := by
  rw [rootExp, rootExp, rootExp, ← Complex.exp_add]
  congr 1
  push_cast
  ring

lemma sum_rootExp {T : ℕ} (hT : 0 < T) (m : ℤ) :
    ∑ t ∈ Finset.range T, rootExp T m t =
      if (T : ℤ) ∣ m then (T : ℂ) else 0 := by
  have hTC : (T : ℂ) ≠ 0 := Nat.cast_ne_zero.mpr hT.ne'
  have hr : ∀ t : ℕ, rootExp T m t =
      Complex.exp (2 * Real.pi * Complex.I * m / T) ^ t := by
    intro t
    rw [← Complex.exp_nat_mul, rootExp]
    congr 1
    field_simp
    ring
  rw [Finset.sum_congr rfl (fun t _ => hr t)]
  have h2pi : (2 : ℂ) * Real.pi * Complex.I ≠ 0 :=
    mul_ne_zero (mul_ne_zero two_ne_zero
      (Complex.ofReal_ne_zero.mpr Real.pi_ne_zero)) Complex.I_ne_zero
  by_cases hdvd : (T : ℤ) ∣ m
  · obtain ⟨c, rfl⟩ := hdvd
    have hr1 : Complex.exp
        (2 * Real.pi * Complex.I * (((T : ℤ) * c : ℤ) : ℂ) / T) = 1 := by
      rw [show (2 : ℂ) * Real.pi * Complex.I * (((T : ℤ) * c : ℤ) : ℂ) / (T : ℂ) =
          (c : ℂ) * (2 * Real.pi * Complex.I) from by
        push_cast
        field_simp
        ring]
      exact Complex.exp_int_mul_two_pi_mul_I c
    rw [if_pos ⟨c, rfl⟩, hr1]
    simp
  · have hrne : Complex.exp (2 * Real.pi * Complex.I * m / T) ≠ 1 := by
      intro h1
      rw [Complex.exp_eq_one_iff] at h1
      obtain ⟨n, hn⟩ := h1
      apply hdvd
      refine ⟨n, ?_⟩
      have e1 : (2 : ℂ) * Real.pi * Complex.I * m =
          n * (2 * Real.pi * Complex.I) * T := by
        have e0 := congrArg (fun z : ℂ => z * (T : ℂ)) hn
        simp only at e0
        rwa [div_mul_cancel₀ _ hTC] at e0
      have e2 : (2 * (Real.pi : ℂ) * Complex.I) * (m : ℂ) =
          (2 * (Real.pi : ℂ) * Complex.I) * ((n : ℂ) * T) := by
        linear_combination e1
      have e3 : (m : ℂ) = (n : ℂ) * T := mul_left_cancel₀ h2pi e2
      have e4 : (m : ℂ) = ((T : ℤ) : ℂ) * ((n : ℤ) : ℂ) := by
        rw [e3]
        push_cast
        ring
      exact_mod_cast e4
    have hrT : Complex.exp (2 * Real.pi * Complex.I * m / T) ^ T = 1 := by
      rw [← Complex.exp_nat_mul]
      rw [show (T : ℂ) * (2 * Real.pi * Complex.I * m / T) =
          (m : ℂ) * (2 * Real.pi * Complex.I) from by
        field_simp
        ring]
      exact Complex.exp_int_mul_two_pi_mul_I m
    rw [if_neg hdvd, geom_sum_eq hrne, hrT]
    simp

lemma getD_append_left {α : Type} {A : List α} (B : List α) (d : α) :
    ∀ {i : ℕ}, i < A.length → (A ++ B).getD i d = A.getD i d := by
  induction A with
  | nil => intro i h; simp at h
  | cons a rest ih =>
    intro i h
    cases i with
    | zero => rfl
    | succ i => exact ih (by simpa using h)

lemma getD_append_right {α : Type} {A : List α} (B : List α) (d : α) :
    ∀ {i : ℕ}, A.length ≤ i → (A ++ B).getD i d = B.getD (i - A.length) d := by
  induction A with
  | nil => intro i _; rfl
  | cons a rest ih =>
    intro i h
    cases i with
    | zero => exact absurd h (by simp)
    | succ i =>
      simp only [List.cons_append, List.getD_cons_succ, List.length_cons,
        Nat.succ_sub_succ]
      exact ih (by simpa using h)

lemma deformMat_length (delta : ℕ → ℕ → ℝ) :
    ∀ (t : ℕ) (mat : List (List ℝ)),
      (deformMat delta t mat).length = mat.length := by
  intro t mat
  induction mat generalizing t with
  | nil => rfl
  | cons row rest ih => simp [deformMat, ih (t + 1)]

lemma getD_replicate_lt {α : Type} (x d : α) :
    ∀ {n t : ℕ}, t < n → (List.replicate n x).getD t d = x := by
  intro n
  induction n with
  | zero => intro t h; exact absurd h (by simp)
  | succ n ih =>
    intro t h
    cases t with
    | zero => rfl
    | succ t => exact ih (by omega)

lemma entry_deform_const (δ : ℕ → ℕ → ℝ) (b : ℝ) (p q : ℕ) {t : ℕ}
    (ht : t < p + q) :
    entry (deformMat δ 0 (List.replicate p [b]) ++
      deformMat δ p (List.replicate q [b])) t 0 = b + δ 0 t := by
  have hlenp : (deformMat δ 0 (List.replicate p [b])).length = p := by
    rw [deformMat_length, List.length_replicate]
  by_cases htp : t < p
  · have he := deformMat_entry δ (List.replicate p [b]) 0 t 0
      (by rw [List.length_replicate]; exact htp)
      (by rw [getD_replicate_lt [b] [] htp]; exact Nat.zero_lt_one)
    simp only [entry] at he ⊢
    rw [getD_append_left _ _ (by rw [hlenp]; exact htp), he,
      getD_replicate_lt [b] [] htp, Nat.zero_add]
    rfl
  · have hpt : p ≤ t := le_of_not_lt htp
    have htq : t - p < q := by omega
    have he := deformMat_entry δ (List.replicate q [b]) p (t - p) 0
      (by rw [List.length_replicate]; exact htq)
      (by rw [getD_replicate_lt [b] [] htq]; exact Nat.zero_lt_one)
    simp only [entry] at he ⊢
    rw [getD_append_right _ _ (by rw [hlenp]; exact hpt), hlenp, he,
      getD_replicate_lt [b] [] htq, Nat.add_sub_cancel' hpt]
    rfl

lemma dft_const_sin {T : ℕ} (hT : 0 < T) (b a : ℝ) (f : ℕ) (g : ℕ → ℝ)
    (hg : ∀ t < T, g t =
      b + (0 + a * Real.sin (2 * Real.pi * (f : ℝ) * t / (T : ℝ) + 0)))
    (k : ℕ) :
    Transforms.dft g T k =
      (b : ℂ) * (if (T : ℤ) ∣ (-(k : ℤ)) then (T : ℂ) else 0) +
      (a : ℂ) * Complex.I / 2 *
        ((if (T : ℤ) ∣ (-(f : ℤ) + -(k : ℤ)) then (T : ℂ) else 0) -
         (if (T : ℤ) ∣ ((f : ℤ) + -(k : ℤ)) then (T : ℂ) else 0)) := by
  have hpt : ∀ t < T,
      (g t : ℂ) * Complex.exp (-(2 * Real.pi * Complex.I * k * t) / T) =
      (b : ℂ) * rootExp T (-(k : ℤ)) t +
      (a : ℂ) * Complex.I / 2 *
        (rootExp T (-(f : ℤ) + -(k : ℤ)) t -
         rootExp T ((f : ℤ) + -(k : ℤ)) t) := by
    intro t ht
    rw [hg t ht]
    have ek : Complex.exp (-(2 * Real.pi * Complex.I * k * t) / T) =
        rootExp T (-(k : ℤ)) t := by
      rw [rootExp]
      congr 1
      push_cast
      ring
    have esin : ((Real.sin (2 * Real.pi * (f : ℝ) * t / (T : ℝ) + 0) : ℝ) : ℂ) =
        (rootExp T (-(f : ℤ)) t - rootExp T ((f : ℤ)) t) * Complex.I / 2 := by
      rw [Complex.ofReal_sin, Complex.sin]
      have e1 : Complex.exp
          (-(((2 * Real.pi * (f : ℝ) * t / (T : ℝ) + 0 : ℝ) : ℂ)) * Complex.I) =
          rootExp T (-(f : ℤ)) t := by
        rw [rootExp]
        congr 1
        push_cast
        ring
      have e2 : Complex.exp
          ((((2 * Real.pi * (f : ℝ) * t / (T : ℝ) + 0 : ℝ)) : ℂ) * Complex.I) =
          rootExp T ((f : ℤ)) t := by
        rw [rootExp]
        congr 1
        push_cast
        ring
      rw [e1, e2]
    rw [ek, Complex.ofReal_add, Complex.ofReal_add, Complex.ofReal_zero,
      Complex.ofReal_mul, esin]
    have hxz := rootExp_mul T (-(f : ℤ)) (-(k : ℤ)) t
    have hyz := rootExp_mul T ((f : ℤ)) (-(k : ℤ)) t
    rw [← hxz, ← hyz]
    ring
  rw [Transforms.dft,
    Finset.sum_congr rfl (fun t htm => hpt t (Finset.mem_range.mp htm)),
    Finset.sum_add_distrib, ← Finset.mul_sum, ← Finset.mul_sum,
    Finset.sum_sub_distrib, sum_rootExp hT, sum_rootExp hT, sum_rootExp hT]

lemma not_dvd_of_natAbs {T : ℕ} {m : ℤ} (h0 : m ≠ 0) (habs : m.natAbs < T) :
    ¬ (T : ℤ) ∣ m := by
  intro hdvd
  have h1 : (T : ℤ).natAbs ∣ m.natAbs := Int.natAbs_dvd_natAbs.mpr hdvd
  rw [Int.natAbs_ofNat] at h1
  exact absurd (Nat.le_of_dvd (Int.natAbs_pos.mpr h0) h1) (not_le.mpr habs)

/-- Claim C9: Periodic with integer frequency `f` in `[1, T/2)`, nonzero
amplitude, shift 0 and offset 0, applied to a constant single-unit base
panel of total length `T = p + q`: the discrete Fourier spectrum of the
transformed series has its dominant non-zero-frequency component exactly
at index `f`: every other index `k` in `[1, T/2)` has strictly smaller
magnitude. -/
theorem periodic_spectral_peak (b a : ℝ) (f p q amb : ℕ)
    (hp : 1 ≤ p) (hq : 1 ≤ q) (ha : a ≠ 0) (hf1 : 1 ≤ f)
    (hf2 : 2 * f < p + q) :
    ∃ D2, (Transforms.Periodic.mk (Transforms.Parameter.Fixed a)
        (Transforms.Parameter.Fixed (f : ℝ)) (Transforms.Parameter.Fixed 0)
        (Transforms.Parameter.Fixed 0)).apply
      (Transforms.constDataset b p q) amb = .ok D2 ∧
    ∀ k, 1 ≤ k → 2 * k < p + q → k ≠ f →
      Complex.abs (Transforms.dft
        (Transforms.colSeries D2.control_units 0) (p + q) k) <
      Complex.abs (Transforms.dft
        (Transforms.colSeries D2.control_units 0) (p + q) f) := by
  have hT : 0 < p + q := by omega
  have hres : ∀ x : ℝ,
      (Parameter.Fixed x).resolve 1 amb = .ok (List.replicate 1 x) := by
    intro x
    rw [Parameter.resolve.eq_def, if_neg one_ne_zero]
  refine ⟨Dataset.mk p q 1 1
      (deformMat (periodicDelta (List.replicate 1 a) (List.replicate 1 (f : ℝ))
        (List.replicate 1 0) (List.replicate 1 0) (p + q)) 0
        (List.replicate p [b]))
      (deformMat (periodicDelta (List.replicate 1 a) (List.replicate 1 (f : ℝ))
        (List.replicate 1 0) (List.replicate 1 0) (p + q)) 0
        (List.replicate p [b]))
      (deformMat (periodicDelta (List.replicate 1 a) (List.replicate 1 (f : ℝ))
        (List.replicate 1 0) (List.replicate 1 0) (p + q)) p
        (List.replicate q [b]))
      (deformMat (periodicDelta (List.replicate 1 a) (List.replicate 1 (f : ℝ))
        (List.replicate 1 0) (List.replicate 1 0) (p + q)) p
        (List.replicate q [b])), ?_, ?_⟩
  · simp only [Periodic.apply, constDataset, hres]
    rfl
  · have hg : ∀ t < p + q,
        Transforms.colSeries
          (Dataset.mk p q 1 1
            (deformMat (periodicDelta (List.replicate 1 a)
              (List.replicate 1 (f : ℝ)) (List.replicate 1 0)
              (List.replicate 1 0) (p + q)) 0 (List.replicate p [b]))
            (deformMat (periodicDelta (List.replicate 1 a)
              (List.replicate 1 (f : ℝ)) (List.replicate 1 0)
              (List.replicate 1 0) (p + q)) 0 (List.replicate p [b]))
            (deformMat (periodicDelta (List.replicate 1 a)
              (List.replicate 1 (f : ℝ)) (List.replicate 1 0)
              (List.replicate 1 0) (p + q)) p (List.replicate q [b]))
            (deformMat (periodicDelta (List.replicate 1 a)
              (List.replicate 1 (f : ℝ)) (List.replicate 1 0)
              (List.replicate 1 0) (p + q)) p
              (List.replicate q [b]))).control_units 0 t =
          b + (0 + a * Real.sin
            (2 * Real.pi * (f : ℝ) * t / ((p + q : ℕ) : ℝ) + 0)) := by
      intro t ht
      exact entry_deform_const
        (periodicDelta (List.replicate 1 a) (List.replicate 1 (f : ℝ))
          (List.replicate 1 0) (List.replicate 1 0) (p + q)) b p q ht
    intro k hk1 hk2 hkf
    have hXk := dft_const_sin hT b a f _ hg k
    have hXf := dft_const_sin hT b a f _ hg f
    have dk1 : ¬ ((p + q : ℕ) : ℤ) ∣ (-(k : ℤ)) :=
      not_dvd_of_natAbs (by omega) (by omega)
    have dk2 : ¬ ((p + q : ℕ) : ℤ) ∣ (-(f : ℤ) + -(k : ℤ)) :=
      not_dvd_of_natAbs (by omega) (by omega)
    have dk3 : ¬ ((p + q : ℕ) : ℤ) ∣ ((f : ℤ) + -(k : ℤ)) :=
      not_dvd_of_natAbs (by omega) (by omega)
    have df1 : ¬ ((p + q : ℕ) : ℤ) ∣ (-(f : ℤ)) :=
      not_dvd_of_natAbs (by omega) (by omega)
    have df2 : ¬ ((p + q : ℕ) : ℤ) ∣ (-(f : ℤ) + -(f : ℤ)) :=
      not_dvd_of_natAbs (by omega) (by omega)
    have df3 : ((p + q : ℕ) : ℤ) ∣ ((f : ℤ) + -(f : ℤ)) := by
      rw [show (f : ℤ) + -(f : ℤ) = 0 from by ring]
      exact dvd_zero _
    rw [hXk, hXf, if_neg dk1, if_neg dk2, if_neg dk3, if_neg df1,
      if_neg df2, if_pos df3]
    rw [show (b : ℂ) * 0 + (a : ℂ) * Complex.I / 2 * (0 - 0) = 0 from by ring,
      show (b : ℂ) * 0 + (a : ℂ) * Complex.I / 2 * (0 - ((p + q : ℕ) : ℂ)) =
        -((a : ℂ) * Complex.I * ((p + q : ℕ) : ℂ)) / 2 from by ring,
      map_zero]
    apply Complex.abs.pos
    refine div_ne_zero (neg_ne_zero.mpr ?_) two_ne_zero
    exact mul_ne_zero
      (mul_ne_zero (Complex.ofReal_ne_zero.mpr ha) Complex.I_ne_zero)
      (Nat.cast_ne_zero.mpr hT.ne')

/-- Witness for C9 at amplitude 1, frequency 1, a constant-0 base panel
with 2 pre and 3 post samples (series length 5). -/
theorem periodic_spectral_peak_witness :
    (1 ≤ 2) ∧ (1 ≤ 3) ∧ ((1 : ℝ) ≠ 0) ∧ (1 ≤ 1) ∧ (2 * 1 < 2 + 3) ∧
    (∃ D2, (Transforms.Periodic.mk (Transforms.Parameter.Fixed 1)
        (Transforms.Parameter.Fixed ((1 : ℕ) : ℝ))
        (Transforms.Parameter.Fixed 0)
        (Transforms.Parameter.Fixed 0)).apply
      (Transforms.constDataset 0 2 3) 0 = .ok D2 ∧
    ∀ k, 1 ≤ k → 2 * k < 2 + 3 → k ≠ 1 →
      Complex.abs (Transforms.dft
        (Transforms.colSeries D2.control_units 0) (2 + 3) k) <
      Complex.abs (Transforms.dft
        (Transforms.colSeries D2.control_units 0) (2 + 3) 1)) :=
  ⟨by norm_num, by norm_num, by norm_num, le_refl 1, by norm_num,
   periodic_spectral_peak 0 1 1 2 3 0 (by norm_num) (by norm_num)
     (by norm_num) (le_refl 1) (by norm_num)⟩

end SpectralTheorems
